import Mathlib

/-!
Verification development for the exam-planning allocation engine:
the per-session seat scheduler (`schedule_for_slot_use_both` in
`01-scheduleTestInRooms.py`) and the invigilation-duty scheduler
(`allocate_strict` / `attempt_one_hop_shifts` in
`02a-allocateExaminationDuty.py`).

The Python code is shallowly embedded: dictionaries become association
lists, sets of pairs become lists of pairs with set-like insert/erase,
Python's stable `sorted` becomes a stable insertion sort (`pySortBy`),
and the `while` placement loop becomes a fuel-indexed structural
recursion (with the fuel proved sufficient).  Free-text name
canonicalization (`canonicalize_raw_name` / `normalize_for_match`) is
regex-based text processing, treated as an external collaborator and
passed in as an opaque parameter `nf : String → String`; the engine only
composes and compares its outputs.
-/

namespace ExamPlan

/-! ### Generic list machinery: stable sort, association lists -/

/-- Stable insertion step: `x` goes after every element `h` with `le h x`.
With `le a b := key b ≤ key a` this reproduces Python's stable
`sorted(..., key=key, reverse=True)`; with `le a b := key a ≤ key b` the
ascending `sorted(..., key=key)`. -/
def insertBy (le : α → α → Bool) (x : α) : List α → List α
  | [] => [x]
  | h :: t => if le h x then h :: insertBy le x t else x :: h :: t

/-- Stable sort (model of Python's `sorted`). -/
def pySortBy (le : α → α → Bool) (l : List α) : List α :=
  l.foldl (fun acc x => insertBy le x acc) []

/-- Association-list lookup (model of Python `dict.get`). -/
def aLookup [DecidableEq κ] : List (κ × α) → κ → Option α
  | [], _ => none
  | (k, v) :: t, key => if k = key then some v else aLookup t key

/-- Association-list write (model of Python `dict[key] = v`): overwrites
in place, appends if the key is new. -/
def upsert [DecidableEq κ] : List (κ × α) → κ → α → List (κ × α)
  | [], key, v => [(key, v)]
  | (k, w) :: t, key, v =>
    if k = key then (key, v) :: t else (k, w) :: upsert t key v

/-- In-range functional update of a list element. -/
def modifyAt (f : α → α) : Nat → List α → List α
  | _, [] => []
  | 0, h :: t => f h :: t
  | i + 1, h :: t => h :: modifyAt f i t

/-- Enumeration with indices, from a starting index. -/
def enumF (i : Nat) : List α → List (Nat × α)
  | [] => []
  | h :: t => (i, h) :: enumF (i + 1) t

/-- Position of the first occurrence of `x` (used to state stability of
the sorts; `l.length` when absent). -/
def posIn [DecidableEq α] : List α → α → Nat
  | [], _ => 0
  | h :: t, x => if h = x then 0 else posIn t x + 1

/-- Python code-point comparison of strings, via the character lists
(kernel-reducible, unlike `String.lt`). -/
def listCharLe : List Char → List Char → Bool
  | [], _ => true
  | _ :: _, [] => false
  | a :: as, b :: bs => if a = b then listCharLe as bs else decide (a.toNat < b.toNat)

/-- `a ≤ b` on strings, code-point lexicographic (Python `str` order). -/
def strLe (a b : String) : Bool := listCharLe a.data b.data

/-- Python substring test `needle in hay` (the empty needle is contained
in everything, as in Python). -/
def strContains (hay needle : String) : Bool :=
  decide (needle.data <:+: hay.data)

/-! ### SeatAllocator: embedding of `schedule_for_slot_use_both`
(`src/iaExam-02-Nov2025/01-scheduleTestInRooms.py`, lines 120-211) and of
the per-session loop of its `main` (lines 227-241). -/

/-- One course row of the session's course list (fields of the
`load_schedule` record used by the scheduler: `sNo` and `code`). -/
structure SCourse where
  sNo : String
  code : String
  deriving DecidableEq

/-- One student row (`load_students` record: `USN` and parsed `tests`). -/
structure SStudent where
  usn : String
  tests : List String
  deriving DecidableEq

/-- One room row (`load_rooms` record). -/
structure SRoom where
  room : String
  aSeats : Nat
  bSeats : Nat
  deriving DecidableEq

/-- Mutable state of one block inside `room_blocks`:
`{"sNo": None, "capacity": r[..], "assigned": []}`; `assigned` holds
`(USN, course sNo)` pairs. -/
structure BlockSt where
  sNo : Option String
  capacity : Nat
  assigned : List (String × String)
  deriving DecidableEq

/-- One entry of `room_blocks`. -/
structure RB where
  room : String
  blkA : BlockSt
  blkB : BlockSt
  deriving DecidableEq

/-- One output row of the seat assignment list. -/
structure SeatRec where
  date : String
  slot : String
  room : String
  blk : String
  seatNo : Nat
  usn : String
  courseSNo : String
  courseCode : String
  deriving DecidableEq

/-- The two `RuntimeError`s of the scheduler (`Insufficient seats ...`
and `Unable to place all students ...`), plus the fuel sentinel of the
embedding of the `while` loop (proved unreachable below). -/
inductive SErr where
  | insufficient
  | unplaceable (sno : String)
  | outOfFuel
  deriving DecidableEq

/-- `[s["USN"] for s in students if sno in s["tests"]]`. -/
def regList (sno : String) (students : List SStudent) : List String :=
  (students.filter (fun s => s.tests.contains sno)).map (fun s => s.usn)

/-- `course_students`: insertion-ordered dict `sNo ↦ deque(usns)`. -/
def buildCS (courses : List SCourse) (students : List SStudent) :
    List (String × List String) :=
  courses.foldl (fun acc c => upsert acc c.sNo (regList c.sNo students)) []

/-- `sum(r["A"] + r["B"] for r in rooms)`. -/
def totalSeats (rooms : List SRoom) : Nat :=
  (rooms.map (fun r => r.aSeats + r.bSeats)).sum

/-- `sum(len(course_students[s]) for s in course_students)`. -/
def totalNeeded (cs : List (String × List String)) : Nat :=
  (cs.map (fun p => p.2.length)).sum

/-- Initial `room_blocks` built from the room list. -/
def initBlocks (rooms : List SRoom) : List RB :=
  rooms.map (fun r => ⟨r.room, ⟨none, r.aSeats, []⟩, ⟨none, r.bSeats, []⟩⟩)

/-- `len(course_students[s])` with the dict read. -/
def demandOf (cs : List (String × List String)) (sno : String) : Nat :=
  ((aLookup cs sno).getD []).length

/-- `sorted(course_students.keys(), key=len(course_students[s]), reverse=True)`
(Python's sort is stable: ties keep dict insertion order). -/
def courseOrder (cs : List (String × List String)) : List String :=
  pySortBy (fun a b => decide (demandOf cs b ≤ demandOf cs a)) (cs.map (fun p => p.1))

/-- `block["capacity"] - len(block["assigned"])`. -/
def capLeft (b : BlockSt) : Nat := b.capacity - b.assigned.length

/-- Candidate blocks contributed by one room for course `sno`:
skip a block when the *paired* block is already committed to `sno`
(`other_block["sNo"] is not None and other_block["sNo"] == sno`) or when
no capacity remains.  A candidate is `(room index, block name, cap_left)`. -/
def blockCand (sno : String) (ri : Nat) (bk : String) (blk other : BlockSt) :
    List (Nat × String × Nat) :=
  if other.sNo = some sno then []
  else if capLeft blk = 0 then []
  else [(ri, bk, capLeft blk)]

/-- All candidate `(ri, bk, cap_left)` triples, rooms in order, A before B. -/
def collectCands (sno : String) (blocks : List RB) : List (Nat × String × Nat) :=
  ((enumF 0 blocks).map (fun p =>
    blockCand sno p.1 "A" p.2.blkA p.2.blkB ++
    blockCand sno p.1 "B" p.2.blkB p.2.blkA)).flatten

/-- Append `batch` students (as `(USN, sno)` rows) to block `bk` of room
index `ri`, then set the block's committed course on first placement
(`if block["sNo"] is None and block["assigned"]`). -/
def applyPlace (sno : String) (ri : Nat) (bk : String) (batch : List String)
    (blocks : List RB) : List RB :=
  modifyAt (fun rb =>
    if bk = "A" then
      let b := { rb.blkA with assigned := rb.blkA.assigned ++ batch.map (fun u => (u, sno)) }
      { rb with blkA := { b with sNo := if b.sNo = none ∧ b.assigned ≠ [] then some sno else b.sNo } }
    else
      let b := { rb.blkB with assigned := rb.blkB.assigned ++ batch.map (fun u => (u, sno)) }
      { rb with blkB := { b with sNo := if b.sNo = none ∧ b.assigned ≠ [] then some sno else b.sNo } })
    ri blocks

/-- Sort order of the candidate list:
`candidates.sort(key=lambda x: x[2], reverse=True)` (stable). -/
def candLe (c d : Nat × String × Nat) : Bool := decide (d.2.2 ≤ c.2.2)

/-- The `while course_students[sno]:` placement loop for one course, as a
fuel-indexed recursion; `fuel = len(queue)` suffices because every
iteration places at least one student (see `placeGo_fuel_irrelevant`). -/
def placeGo (sno : String) : Nat → List RB → List String → Except SErr (List RB)
  | _, blocks, [] => .ok blocks
  | 0, _, _ :: _ => .error .outOfFuel
  | fuel + 1, blocks, x :: xs =>
    match pySortBy candLe (collectCands sno blocks) with
    | [] => .error (.unplaceable sno)
    | best :: _ =>
      let take := min best.2.2 (x :: xs).length
      placeGo sno fuel (applyPlace sno best.1 best.2.1 ((x :: xs).take take) blocks)
        ((x :: xs).drop take)

/-- The outer `for sno in course_order:` loop. -/
def placeAll (cs : List (String × List String)) :
    List String → List RB → Except SErr (List RB)
  | [], blocks => .ok blocks
  | sno :: rest, blocks =>
    let q := (aLookup cs sno).getD []
    match placeGo sno q.length blocks q with
    | .error e => .error e
    | .ok blocks2 => placeAll cs rest blocks2

/-- Output rows for one block: seats `1..capacity`, the first
`len(assigned)` filled, the rest empty; the course code is looked up in
the session's course list (`next((c for c in courses if ...), None)`). -/
def blockRows (date slot : String) (courses : List SCourse)
    (roomName bk : String) (b : BlockSt) : List SeatRec :=
  (List.range b.capacity).map (fun i =>
    match b.assigned.get? i with
    | some rec =>
      { date := date, slot := slot, room := roomName, blk := bk, seatNo := i + 1,
        usn := rec.1, courseSNo := rec.2,
        courseCode := ((courses.find? (fun c => decide (c.sNo = rec.2))).map
          (fun c => c.code)).getD "" }
    | none =>
      { date := date, slot := slot, room := roomName, blk := bk, seatNo := i + 1,
        usn := "", courseSNo := "", courseCode := "" })

/-- The final `assignments` list: every room, block A then B. -/
def buildAssignments (date slot : String) (courses : List SCourse)
    (blocks : List RB) : List SeatRec :=
  (blocks.map (fun rb =>
    blockRows date slot courses rb.room "A" rb.blkA ++
    blockRows date slot courses rb.room "B" rb.blkB)).flatten

/-- Embedding of `schedule_for_slot_use_both(date, slot, courses,
students, rooms)`. -/
def schedule_for_slot_use_both (date slot : String) (courses : List SCourse)
    (students : List SStudent) (rooms : List SRoom) :
    Except SErr (List SeatRec) :=
  let cs := buildCS courses students
  if totalNeeded cs > totalSeats rooms then .error .insufficient
  else
    match placeAll cs (courseOrder cs) (initBlocks rooms) with
    | .error e => .error e
    | .ok blocks => .ok (buildAssignments date slot courses blocks)

/-- Rows of a scheduler result, `[]` on error (used to state facts about
the returned assignment list). -/
def rowsOfResult : Except SErr (List SeatRec) → List SeatRec
  | .ok r => r
  | .error _ => []

/-- `True` exactly on the `Insufficient seats ...` error. -/
def isInsufficient : Except SErr (List SeatRec) → Bool
  | .error .insufficient => true
  | _ => false

/-- Number of seats holding course `sno` in one block. -/
def placedIn (sno : String) (b : BlockSt) : Nat :=
  (b.assigned.filter (fun p => decide (p.2 = sno))).length

/-- Number of seats holding course `sno` across all room blocks. -/
def placedCount (sno : String) (blocks : List RB) : Nat :=
  (blocks.map (fun rb => placedIn sno rb.blkA + placedIn sno rb.blkB)).sum

/-- Every block's occupancy is within its capacity. -/
def capOK (blocks : List RB) : Prop :=
  ∀ rb ∈ blocks, rb.blkA.assigned.length ≤ rb.blkA.capacity ∧
    rb.blkB.assigned.length ≤ rb.blkB.capacity

/-- One iteration of the per-session loop of `main` (lines 227-241):
filter the students registered in this session, pre-check capacity, then
run the scheduler catching its `RuntimeError`s; `none` means no seat
table is written for the session. -/
def processOne (students : List SStudent) (rooms : List SRoom)
    (item : (String × String) × List SCourse) :
    (String × String) × Option (List SeatRec) :=
  let snoSet := item.2.map (fun c => c.sNo)
  let studentsInSlot := students.filter (fun s => s.tests.any (fun t => snoSet.contains t))
  if studentsInSlot.length > totalSeats rooms then (item.1, none)
  else
    match schedule_for_slot_use_both item.1.1 item.1.2 item.2 studentsInSlot rooms with
    | .ok a => (item.1, some a)
    | .error _ => (item.1, none)

/-- The whole per-session loop of `main` over the schedule map. -/
def mainRun (students : List SStudent) (rooms : List SRoom)
    (scheduleMap : List ((String × String) × List SCourse)) :
    List ((String × String) × Option (List SeatRec)) :=
  scheduleMap.foldl (fun acc item => acc ++ [processOne students rooms item]) []

/-! ### Concrete inputs used to exercise the seat allocator -/

/-- One room, block A with 1 seat, block B with 5 seats. -/
def rooms1 : List SRoom := [⟨"R1", 1, 5⟩]

/-- Two courses with identities "1" and "2". -/
def courses1 : List SCourse := [⟨"1", "C1"⟩, ⟨"2", "C2"⟩]

/-- Three students registered for course "1", three for course "2". -/
def students1 : List SStudent :=
  [⟨"u1", ["1"]⟩, ⟨"u2", ["1"]⟩, ⟨"u3", ["1"]⟩,
   ⟨"v1", ["2"]⟩, ⟨"v2", ["2"]⟩, ⟨"v3", ["2"]⟩]

/-- Course list whose identities are in descending order. -/
def courses2 : List SCourse := [⟨"2", "X"⟩, ⟨"1", "Y"⟩]

/-- One student per course of `courses2` (equal demand). -/
def students2 : List SStudent := [⟨"u1", ["2"]⟩, ⟨"u2", ["1"]⟩]

/-- Modelled from the spec (§4.1 step 2): order courses by descending
demand, ties broken by course identity ascending.  Used only to compare
the specified order with the implemented `courseOrder`. -/
def specCourseOrder (cs : List (String × List String)) : List String :=
  pySortBy (fun a b =>
    decide (demandOf cs b < demandOf cs a) ||
    (decide (demandOf cs a = demandOf cs b) && strLe a b)) (cs.map (fun p => p.1))

/-! ### DutyAllocator / DutyRepair: embedding of `build_ic_block_map`,
`allocate_strict` and `attempt_one_hop_shifts`
(`src/iaExam-01-Aug2025/02a-allocateExaminationDuty.py`, lines 151-345).

A session is a `(date, slot)` pair.  Sets of `(faculty, session)` pairs
model the `assigned_slots` dict-of-sets; the per-faculty `Counter`
`faculty_load` is a function `String → Nat`.  The `block_counts` argument
of `allocate_strict` is not referenced by its body and is omitted; the
`session_ic_raw` output of `build_ic_block_map` and the `resolved` list
returned by `attempt_one_hop_shifts` feed only the LaTeX report / prints
and are omitted likewise. -/

/-- A `(date, slot)` session key. -/
abbrev Session := String × String

/-- `SLOT_ORDER` (line 29). -/
def SLOT_ORDER : List String := ["Slot-1", "Slot-2", "Slot-3", "Slot-4"]

/-- The `ADJACENT` table (line 30), as lists.  Every use except the
repair pass's `blocking_adjs` enumeration is order-insensitive
(membership tests or set insertions). -/
def adjacent (s : String) : List String :=
  if s = "Slot-1" then ["Slot-2"]
  else if s = "Slot-2" then ["Slot-1", "Slot-3"]
  else if s = "Slot-3" then ["Slot-2", "Slot-4"]
  else if s = "Slot-4" then ["Slot-3"]
  else []

/-- Iteration order over the `ADJACENT` *set* in the repair pass (line
283): Python iterates a `set` of strings, whose order varies with hash
randomization; `rev` selects between the two possible orders of a
two-element set (a one-element set has only one). -/
def adjIter (rev : Bool) (s : String) : List String :=
  if rev then (adjacent s).reverse else adjacent s

/-- `SLOT_ORDER.index(x[1]) if x[1] in SLOT_ORDER else 999` (line 188). -/
def slotIndex (s : String) : Nat :=
  if s ∈ SLOT_ORDER then posIn SLOT_ORDER s else 999

/-- Set-like insertion into a list-represented set. -/
def insertPair [DecidableEq β] (x : β) (l : List β) : List β :=
  if x ∈ l then l else x :: l

/-- Set-like removal from a list-represented set. -/
def erasePair [DecidableEq β] (x : β) (l : List β) : List β :=
  l.filter (fun p => !decide (p = x))

/-- One entry of `session_blocks[(date, slot)]`. -/
structure BlockRec where
  sNo : String
  room : String
  blk : String
  count : Nat
  deriving DecidableEq

/-- One row of the duty table (`invig` list). -/
structure Duty where
  date : String
  slot : String
  sNo : String
  room : String
  blk : String
  fac : String
  note : String
  deriving DecidableEq

/-- One `schedule.csv` row as consumed by `build_ic_block_map`: course
key, coordinator raw display name, and the course's own session. -/
structure CourseInfo where
  sNo : String
  icRaw : String
  date : String
  slot : String
  deriving DecidableEq

/-- Allocation state: the duty rows written so far, the committed
`(faculty, session)` set (`assigned_slots`), and `faculty_load`. -/
structure DState where
  invig : List Duty
  slots : List (String × Session)
  load : String → Nat

/-- Static context shared by `allocate_strict` and
`attempt_one_hop_shifts`: the normalization function, the faculty
roster of normalized identities (`norm_order`), `norm_to_display`,
`sNo_ic_norm`, `ic_blocked_slots` and `session_blocks`. -/
structure DCtx where
  nf : String → String
  norm_order : List String
  ntd : List (String × String)
  snoIc : List (String × String)
  icBlocked : List (String × Session)
  sb : List (Session × List BlockRec)

/-- Add a coordinator's blocked sessions: the course's own session and
the adjacent slots of the same date (lines 173-176). -/
def addBlocked (bl : List (String × Session)) (icn date slot : String) :
    List (String × Session) :=
  (adjacent slot).foldl (fun b adj => insertPair (icn, (date, adj)) b)
    (insertPair (icn, (date, slot)) bl)

/-- One `course_info` row of `build_ic_block_map`'s loop (lines 162-176):
record the course's normalized coordinator, and when the row has a
session, block that coordinator's exact identity for the session and its
adjacent slots. -/
def icStep (nf : String → String)
    (st : List (String × String) × List (String × Session)) (e : CourseInfo) :
    List (String × String) × List (String × Session) :=
  if e.icRaw = "" then (upsert st.1 e.sNo "", st.2)
  else
    let icn := nf e.icRaw
    if e.date ≠ "" ∧ e.slot ≠ "" then
      (upsert st.1 e.sNo icn, addBlocked st.2 icn e.date e.slot)
    else (upsert st.1 e.sNo icn, st.2)

/-- Embedding of `build_ic_block_map(course_info)` (lines 151-178):
returns `sNo_ic_norm` and `ic_blocked_slots`.  The raw-to-normalized
coordinator mapping `normalize_for_match(canonicalize_raw_name(·))` is
the parameter `nf`. -/
def build_ic_block_map (nf : String → String) (courseInfo : List CourseInfo) :
    List (String × String) × List (String × Session) :=
  courseInfo.foldl (icStep nf) ([], [])

/-- Coordinator identity match (lines 211, 222, 271, 310): both strings
nonempty, and equal or one a substring of the other. -/
def icMatch (icn n : String) : Bool :=
  decide (icn ≠ "") && decide (n ≠ "") &&
    (decide (icn = n) || strContains n icn || strContains icn n)

/-- `len({rb['room'] for rb in session_blocks.get((date,slot),[]) if
rb['sNo']==sNo})` (lines 213, 272, 311). -/
def roomCount (sb : List (Session × List BlockRec)) (sess : Session)
    (sNo : String) : Nat :=
  (((((aLookup sb sess).getD []).filter (fun rb => decide (rb.sNo = sNo))).map
    (fun rb => rb.room)).dedup).length

/-- The eligibility test of `allocate_strict`'s inner loop (lines
198-216): not already assigned in this session, not in the coordinator's
blocked sessions, no adjacent-slot assignment on the same date, and the
coordinator-match exclusion only when the course occupies more than two
rooms. -/
def eligCheck (slots : List (String × Session)) (icBlocked : List (String × Session))
    (snoIc : List (String × String)) (sb : List (Session × List BlockRec))
    (date slot sNo norm : String) : Bool :=
  if decide ((norm, (date, slot)) ∈ slots) then false
  else if decide ((norm, (date, slot)) ∈ icBlocked) then false
  else if (adjacent slot).any (fun adj => decide ((norm, (date, adj)) ∈ slots)) then
    false
  else
    let icn := (aLookup snoIc sNo).getD ""
    if icMatch icn norm && decide (roomCount sb (date, slot) sNo > 2) then false
    else true

/-- The `eligible` list for one block. -/
def eligibleFor (ctx : DCtx) (slots : List (String × Session))
    (date slot sNo : String) : List String :=
  ctx.norm_order.filter (eligCheck slots ctx.icBlocked ctx.snoIc ctx.sb date slot sNo)

/-- `sorted(candidates, key=lambda n: (faculty_load.get(n,0), n))` order
(line 230): load ascending, then identity ascending. -/
def loadKeyLe (load : String → Nat) (a b : String) : Bool :=
  decide (load a < load b) || (decide (load a = load b) && strLe a b)

/-- Candidate selection (lines 218-230): prefer non-coordinator
candidates, then pick the minimum by `(load, identity)`. -/
def pickChosen (load : String → Nat) (eligible : List String) (icn : String) :
    Option String :=
  let nonIC := eligible.filter (fun n => !(icMatch icn n))
  let icCands := eligible.filter (fun n => icMatch icn n)
  (pySortBy (loadKeyLe load) (if nonIC.isEmpty then icCands else nonIC)).head?

/-- `norm_to_display.get(chosen, chosen)` (lines 235, 335, 339). -/
def displayOf (ntd : List (String × String)) (n : String) : String :=
  (aLookup ntd n).getD n

/-- One block of `allocate_strict`'s inner loop (lines 191-237). -/
def allocBlock (ctx : DCtx) (date slot : String) (st : DState) (b : BlockRec) :
    DState :=
  if b.count = 0 then
    { st with invig := st.invig ++ [⟨date, slot, b.sNo, b.room, b.blk, "", "no-students"⟩] }
  else
    let eligible := eligibleFor ctx st.slots date slot b.sNo
    let icn := (aLookup ctx.snoIc b.sNo).getD ""
    match pickChosen st.load eligible icn with
    | some c =>
      if c = "" then
        { st with invig := st.invig ++
            [⟨date, slot, b.sNo, b.room, b.blk, "", "unassigned-strict"⟩] }
      else
        { invig := st.invig ++ [⟨date, slot, b.sNo, b.room, b.blk, displayOf ctx.ntd c, ""⟩],
          slots := insertPair (c, (date, slot)) st.slots,
          load := fun n => if n = c then st.load n + 1 else st.load n }
    | none =>
      { st with invig := st.invig ++
          [⟨date, slot, b.sNo, b.room, b.blk, "", "unassigned-strict"⟩] }

/-- Session sort key `(x[0], SLOT_ORDER.index(x[1]) ...)` (line 188),
with the string part compared as Python compares `str`. -/
def strLt (a b : String) : Bool := strLe a b && !(decide (a = b))

/-- Stable ascending order on sessions. -/
def sessLe (a b : Session) : Bool :=
  strLt a.1 b.1 || (decide (a.1 = b.1) && decide (slotIndex a.2 ≤ slotIndex b.2))

/-- Block sort key `(b['room'], b['block'], b['sNo'])` (line 190). -/
def blockKeyLe (a b : BlockRec) : Bool :=
  strLt a.room b.room || (decide (a.room = b.room) &&
    (strLt a.blk b.blk || (decide (a.blk = b.blk) && strLe a.sNo b.sNo)))

/-- Embedding of `allocate_strict` (lines 180-239) given a prebuilt
context (its `build_ic_block_map` call is in `mkCtx`).  Starts from an
empty duty list, empty `assigned_slots`, zero `faculty_load`. -/
def allocate_strict (ctx : DCtx) : DState :=
  (pySortBy sessLe (ctx.sb.map (fun p => p.1))).foldl (fun st sess =>
    (pySortBy blockKeyLe ((aLookup ctx.sb sess).getD [])).foldl
      (fun st2 b => allocBlock ctx sess.1 sess.2 st2 b) st)
    ⟨[], [], fun _ => 0⟩

/-- `assigned_slots.get(norm, set())` as a session set. -/
def slotsOf (slots : List (String × Session)) (n : String) : List Session :=
  (slots.filter (fun p => decide (p.1 = n))).map (fun p => p.2)

/-- Set-like removal of one session. -/
def eraseSess (x : Session) (l : List Session) : List Session :=
  l.filter (fun p => !decide (p = x))

/-- `has_adj_conflict` (lines 248-257): some held slot has an adjacent
slot held on the same date. -/
def hasAdjConflict (S : List Session) : Bool :=
  S.any (fun p => (adjacent p.2).any (fun a => decide ((p.1, a) ∈ S)))

/-- `tnorm` resolution of a displayed faculty name (lines 290-295):
first roster entry with this display, else re-normalize the display. -/
def resolveNorm (ntd : List (String × String)) (nf : String → String)
    (facDisp : String) : String :=
  match ntd.find? (fun p => decide (p.2 = facDisp)) with
  | some p => p.1
  | none => nf facDisp

/-- `possible_candidates` for one unassigned row (lines 264-280): free
this session, not coordinator-blocked, not excluded by the multi-room
rule, but holding an adjacent-slot assignment on the same date. -/
def possibleCands (ctx : DCtx) (st : DState) (r : Duty) : List String :=
  ctx.norm_order.filter (fun norm =>
    !decide ((norm, (r.date, r.slot)) ∈ st.slots) &&
    !decide ((norm, (r.date, r.slot)) ∈ ctx.icBlocked) &&
    (let icn := (aLookup ctx.snoIc r.sNo).getD ""
     !(icMatch icn norm && decide (roomCount ctx.sb (r.date, r.slot) r.sNo > 2))) &&
    (adjacent r.slot).any (fun adj => decide ((norm, (r.date, adj)) ∈ st.slots)))

/-- `blocking_adjs` (line 283), enumerated in the set order chosen by
`rev`. -/
def blockingAdjs (rev : Bool) (st : DState) (date slot cand : String) :
    List String :=
  (adjIter rev slot).filter (fun adj => decide ((cand, (date, adj)) ∈ st.slots))

/-- Find the target row occupying `(date, adj_slot)` for `cand` (lines
285-298): the first assigned row of that session whose displayed faculty
resolves to `cand`; also returns its index. -/
def findTargetIdx (ctx : DCtx) (invig : List Duty) (date adjSlot cand : String) :
    Option (Nat × Duty) :=
  (enumF 0 invig).find? (fun p =>
    decide (p.2.date = date) && decide (p.2.slot = adjSlot) &&
    decide (p.2.fac ≠ "") && decide (resolveNorm ctx.ntd ctx.nf p.2.fac = cand))

/-- The `alt` search (lines 303-327): a distinct faculty, free and
allowed at the adjacent session, whose move creates no adjacency
self-conflict, and whose replacement leaves `cand`'s updated slot set
conflict-free. -/
def findAlt (ctx : DCtx) (st : DState) (date slot adjSlot cand targetSNo : String) :
    Option String :=
  ctx.norm_order.find? (fun alt =>
    !decide (alt = cand) &&
    !decide ((alt, (date, adjSlot)) ∈ ctx.icBlocked) &&
    (let icn := (aLookup ctx.snoIc targetSNo).getD ""
     !(icMatch icn alt && decide (roomCount ctx.sb (date, adjSlot) targetSNo > 2))) &&
    !decide ((alt, (date, adjSlot)) ∈ st.slots) &&
    !hasAdjConflict (insertPair (date, adjSlot) (slotsOf st.slots alt)) &&
    !hasAdjConflict (insertPair (date, slot)
      (eraseSess (date, adjSlot) (slotsOf st.slots cand))))

/-- First `some` value of `f` over a list (Python `for` with `break`). -/
def firstSome (f : α → Option β) : List α → Option β
  | [] => none
  | x :: xs =>
    match f x with
    | some y => some y
    | none => firstSome f xs

/-- One adjacent-slot attempt for a candidate (lines 284-329): locate the
target row, then an `alt`; `none` means `continue`. -/
def tryAdj (ctx : DCtx) (st : DState) (r : Duty) (cand : String)
    (adjSlot : String) : Option (String × String × Nat × Duty × String) :=
  match findTargetIdx ctx st.invig r.date adjSlot cand with
  | none => none
  | some (j, tgt) =>
    match findAlt ctx st r.date r.slot adjSlot cand tgt.sNo with
    | none => none
    | some alt => some (cand, adjSlot, j, tgt, alt)

/-- The whole search for one unassigned row: candidates in roster order,
their blocking adjacent slots in set order, first success wins (the
`break`s at lines 342-344). -/
def findCommit (rev : Bool) (ctx : DCtx) (st : DState) (r : Duty) :
    Option (String × String × Nat × Duty × String) :=
  firstSome (fun cand =>
      firstSome (tryAdj ctx st r cand) (blockingAdjs rev st r.date r.slot cand))
    (possibleCands ctx st r)

/-- The committed shift (lines 331-341): reassign the target row to
`alt`, move `cand`'s hold from the adjacent session to the current one,
assign the unassigned row to `cand`.  `faculty_load` is not touched. -/
def applyCommit (ctx : DCtx) (st : DState) (idx : Nat) (r : Duty)
    (c : String × String × Nat × Duty × String) : DState :=
  match c with
  | (cand, adjSlot, j, tgt, alt) =>
    { invig := (st.invig.set j
          { tgt with fac := displayOf ctx.ntd alt, note := "shifted-by-algo" }).set idx
        { r with fac := displayOf ctx.ntd cand,
                 note := "assigned-by-shift-from-" ++ alt },
      slots := insertPair (cand, (r.date, r.slot)) (insertPair (alt, (r.date, adjSlot))
        (erasePair (cand, (r.date, adjSlot)) st.slots)),
      load := st.load }

/-- One iteration of the repair loop (lines 260-344): skip rows already
assigned, otherwise search and commit at most one shift. -/
def repairStep (rev : Bool) (ctx : DCtx) (st : DState) (idx : Nat) : DState :=
  match st.invig.get? idx with
  | none => st
  | some r =>
    if r.fac ≠ "" then st
    else
      match findCommit rev ctx st r with
      | none => st
      | some c => applyCommit ctx st idx r c

/-- Embedding of `attempt_one_hop_shifts` (lines 243-345): the
`enumerate` loop over the (fixed-length) duty list. -/
def attempt_one_hop_shifts (rev : Bool) (ctx : DCtx) (st : DState) : DState :=
  (List.range st.invig.length).foldl (repairStep rev ctx) st

/-- Context assembly as in `main` (lines 509-526): `norm_order` is the
roster's normalized identities and `build_ic_block_map` supplies the
coordinator maps. -/
def mkCtx (nf : String → String) (norm_order : List String)
    (ntd : List (String × String)) (sb : List (Session × List BlockRec))
    (courseInfo : List CourseInfo) : DCtx :=
  ⟨nf, norm_order, ntd, (build_ic_block_map nf courseInfo).1,
    (build_ic_block_map nf courseInfo).2, sb⟩

/-- The duty side of the engine: `allocate_strict` then
`attempt_one_hop_shifts`, as in `main` (lines 526-530). -/
def dutyPipeline (rev : Bool) (nf : String → String) (norm_order : List String)
    (ntd : List (String × String)) (sb : List (Session × List BlockRec))
    (courseInfo : List CourseInfo) : DState :=
  let ctx := mkCtx nf norm_order ntd sb courseInfo
  attempt_one_hop_shifts rev ctx (allocate_strict ctx)

/-- The whole engine over one run's inputs: every session's seat
allocation (the per-session loop of the seat script's `main`) and the
final duty table. -/
def engineRun (rev : Bool) (students : List SStudent) (rooms : List SRoom)
    (scheduleMap : List ((String × String) × List SCourse))
    (nf : String → String) (norm_order : List String)
    (ntd : List (String × String)) (sb : List (Session × List BlockRec))
    (courseInfo : List CourseInfo) :
    List ((String × String) × Option (List SeatRec)) × List Duty :=
  (mainRun students rooms scheduleMap,
   (dutyPipeline rev nf norm_order ntd sb courseInfo).invig)

/-! ### Concrete inputs used to exercise the duty allocator.
`nf` is instantiated with `id` in these scenarios: all the names involved
are already in normalized form (lowercase words), on which
`normalize_for_match ∘ canonicalize_raw_name` acts as the identity. -/

/-- Roster of one faculty "pat" who coordinates course c1. -/
def ntdA : List (String × String) := [("pat", "Pat")]

/-- Course c1, coordinated by pat, held in (d1, Slot-1). -/
def ciA : List CourseInfo := [⟨"c1", "pat", "d1", "Slot-1"⟩]

/-- One occupied block of c1 in (d1, Slot-1), one room. -/
def sbA : List (Session × List BlockRec) := [(("d1", "Slot-1"), [⟨"c1", "R1", "A", 2⟩])]

/-- Context for the coordinator-exclusion scenario. -/
def ctxA : DCtx := mkCtx id ["pat"] ntdA sbA ciA

/-- Roster for the one-hop-shift scenario. -/
def ordB : List String := ["bob", "cam", "dan", "patel kumar"]

/-- Its display names. -/
def ntdB : List (String × String) :=
  [("bob", "Bob"), ("cam", "Cam"), ("dan", "Dan"), ("patel kumar", "Patel Kumar")]

/-- Course c9 in (d1, Slot-2) is coordinated by an external "patel",
whose name is a substring of roster member "patel kumar". -/
def ciB : List CourseInfo := [⟨"c9", "patel", "d1", "Slot-2"⟩]

/-- One block in (d1, Slot-1) and three rooms of c9 in (d1, Slot-2). -/
def sbB : List (Session × List BlockRec) :=
  [(("d1", "Slot-1"), [⟨"c1", "R1", "A", 1⟩]),
   (("d1", "Slot-2"), [⟨"c9", "R1", "A", 1⟩, ⟨"c9", "R2", "A", 1⟩, ⟨"c9", "R3", "A", 1⟩])]

/-- Roster of a single faculty facing two blocks in one session. -/
def ntdC : List (String × String) := [("solo", "Solo")]

/-- Two occupied one-room blocks of c1 in the same session. -/
def sbC : List (Session × List BlockRec) :=
  [(("d1", "Slot-1"), [⟨"c1", "R1", "A", 1⟩, ⟨"c1", "R2", "A", 1⟩])]

/-- Context for the one-hop-shift scenario. -/
def ctxB : DCtx := mkCtx id ordB ntdB sbB ciB

/-! ### Conflict-freedom and well-formedness predicates -/

/-- Two duty rows clash when they share a date and sit in the same slot
or in (symmetrically) adjacent slots. -/
def conflictBetween (r1 r2 : Duty) : Prop :=
  r1.date = r2.date ∧
    (r1.slot = r2.slot ∨ r2.slot ∈ adjacent r1.slot ∨ r1.slot ∈ adjacent r2.slot)

/-- No faculty identity holds two clashing assignments in the duty
table (identities read back from the displayed names the way the repair
pass itself does). -/
def noConflicts (ntd : List (String × String)) (nf : String → String)
    (rows : List Duty) : Prop :=
  ∀ i, (hi : i < rows.length) → ∀ j, (hj : j < rows.length) → i ≠ j →
    (rows.get ⟨i, hi⟩).fac ≠ "" → (rows.get ⟨j, hj⟩).fac ≠ "" →
    resolveNorm ntd nf (rows.get ⟨i, hi⟩).fac =
      resolveNorm ntd nf (rows.get ⟨j, hj⟩).fac →
    ¬ conflictBetween (rows.get ⟨i, hi⟩) (rows.get ⟨j, hj⟩)

/-- Every assigned row is backed by its `(faculty, session)` pair in
`assigned_slots`. -/
def rowsSound (ntd : List (String × String)) (nf : String → String)
    (rows : List Duty) (slots : List (String × Session)) : Prop :=
  ∀ i, (hi : i < rows.length) → (rows.get ⟨i, hi⟩).fac ≠ "" →
    (resolveNorm ntd nf (rows.get ⟨i, hi⟩).fac,
      ((rows.get ⟨i, hi⟩).date, (rows.get ⟨i, hi⟩).slot)) ∈ slots

/-- Well-formedness of `norm_to_display` as `load_faculty_csv` builds it:
displays are pairwise distinct and nonempty, and every roster identity
has an entry. -/
def GoodNTD (ntd : List (String × String)) (order : List String) : Prop :=
  (∀ p ∈ ntd, ∀ q ∈ ntd, p.2 = q.2 → p.1 = q.1) ∧
  (∀ p ∈ ntd, p.2 ≠ "") ∧
  (∀ n ∈ order, (aLookup ntd n).isSome)

/-- Allowed outcome notes of the duty pipeline. -/
def noteOK (nt : String) : Prop :=
  nt = "" ∨ nt = "no-students" ∨ nt = "unassigned-strict" ∨
  nt = "shifted-by-algo" ∨ ∃ g, nt = "assigned-by-shift-from-" ++ g

/-! ### General lemmas about the list machinery -/

theorem insertBy_perm (le : α → α → Bool) (x : α) (l : List α) :
    (insertBy le x l).Perm (x :: l) := by
  induction l with
  | nil => simp [insertBy]
  | cons h t ih =>
    simp only [insertBy]
    split
    · exact (ih.cons h).trans (List.Perm.swap x h t)
    · exact List.Perm.refl _

theorem pySortBy_perm (le : α → α → Bool) (l : List α) :
    (pySortBy le l).Perm l := by
  suffices h : ∀ acc : List α,
      (l.foldl (fun acc x => insertBy le x acc) acc).Perm (acc ++ l) by
    simpa using h []
  induction l with
  | nil => simp
  | cons x xs ih =>
    intro acc
    have h2 : (insertBy le x acc ++ xs).Perm (acc ++ x :: xs) := by
      refine ((insertBy_perm le x acc).append_right xs).trans ?_
      simpa using (@List.perm_middle _ x acc xs).symm
    simpa only [List.foldl_cons] using (ih (insertBy le x acc)).trans h2

theorem mem_pySortBy (le : α → α → Bool) (l : List α) (a : α) :
    a ∈ pySortBy le l ↔ a ∈ l :=
  (pySortBy_perm le l).mem_iff

theorem insertBy_pairwise (le : α → α → Bool)
    (htot : ∀ a b, le a b = true ∨ le b a = true)
    (htrans : ∀ a b c, le a b = true → le b c = true → le a c = true)
    (x : α) (l : List α) (hl : l.Pairwise (fun a b => le a b = true)) :
    (insertBy le x l).Pairwise (fun a b => le a b = true) := by
  induction l with
  | nil => simp [insertBy]
  | cons h t ih =>
    rw [List.pairwise_cons] at hl
    obtain ⟨hh, ht⟩ := hl
    simp only [insertBy]
    split
    · rename_i hle
      refine List.Pairwise.cons ?_ (ih ht)
      intro b hb
      rcases List.mem_cons.mp ((insertBy_perm le x t).mem_iff.mp hb) with hb | hb
      · subst hb; exact hle
      · exact hh b hb
    · rename_i hle
      have hxh : le x h = true := (htot h x).resolve_left hle
      refine List.Pairwise.cons ?_ (List.Pairwise.cons hh ht)
      intro b hb
      rcases List.mem_cons.mp hb with hb | hb
      · subst hb; exact hxh
      · exact htrans x h b hxh (hh b hb)

theorem pySortBy_pairwise (le : α → α → Bool)
    (htot : ∀ a b, le a b = true ∨ le b a = true)
    (htrans : ∀ a b c, le a b = true → le b c = true → le a c = true)
    (l : List α) :
    (pySortBy le l).Pairwise (fun a b => le a b = true) := by
  suffices h : ∀ acc : List α, acc.Pairwise (fun a b => le a b = true) →
      (l.foldl (fun acc x => insertBy le x acc) acc).Pairwise
        (fun a b => le a b = true) by
    exact h [] (by simp)
  induction l with
  | nil => intro acc hacc; simpa using hacc
  | cons x xs ih =>
    intro acc hacc
    exact ih _ (insertBy_pairwise le htot htrans x acc hacc)

theorem pySortBy_head_min (le : α → α → Bool)
    (htot : ∀ a b, le a b = true ∨ le b a = true)
    (htrans : ∀ a b c, le a b = true → le b c = true → le a c = true)
    (l : List α) (c : α) (hc : (pySortBy le l).head? = some c) :
    c ∈ l ∧ ∀ y ∈ l, le c y = true := by
  have hpw := pySortBy_pairwise le htot htrans l
  have hperm := pySortBy_perm le l
  cases hs : pySortBy le l with
  | nil => rw [hs] at hc; simp at hc
  | cons h t =>
    rw [hs] at hc hpw hperm
    simp only [List.head?_cons, Option.some.injEq] at hc
    constructor
    · rw [← hc]
      exact hperm.mem_iff.mp (List.mem_cons_self _ _)
    · intro y hy
      rw [← hc]
      rcases List.mem_cons.mp (hperm.mem_iff.mpr hy) with h1 | h1
      · rw [h1]
        rcases htot h h with h2 | h2 <;> exact h2
      · exact (List.pairwise_cons.mp hpw).1 y h1

theorem char_toNat_inj {a b : Char} (h : a.toNat = b.toNat) : a = b :=
  Char.ext (UInt32.ext h)

theorem listCharLe_total (a b : List Char) :
    listCharLe a b = true ∨ listCharLe b a = true := by
  induction a generalizing b with
  | nil => left; rfl
  | cons x xs ih =>
    cases b with
    | nil => right; rfl
    | cons y ys =>
      simp only [listCharLe]
      by_cases hxy : x = y
      · subst hxy
        simpa using ih ys
      · have hyx : y ≠ x := fun h => hxy h.symm
        simp only [if_neg hxy, if_neg hyx]
        rcases Nat.lt_trichotomy x.toNat y.toNat with h | h | h
        · left; simpa using h
        · exact absurd (char_toNat_inj h) hxy
        · right; simpa using h

theorem listCharLe_trans (a b c : List Char)
    (hab : listCharLe a b = true) (hbc : listCharLe b c = true) :
    listCharLe a c = true := by
  induction a generalizing b c with
  | nil => rfl
  | cons x xs ih =>
    cases b with
    | nil => simp [listCharLe] at hab
    | cons y ys =>
      cases c with
      | nil => simp [listCharLe] at hbc
      | cons z zs =>
        simp only [listCharLe] at hab hbc ⊢
        by_cases hxy : x = y
        · subst hxy
          rw [if_pos rfl] at hab
          by_cases hyz : x = z
          · subst hyz
            rw [if_pos rfl] at hbc ⊢
            exact ih ys zs hab hbc
          · rw [if_neg hyz] at hbc ⊢
            exact hbc
        · rw [if_neg hxy] at hab
          have g1 : x.toNat < y.toNat := of_decide_eq_true hab
          by_cases hyz : y = z
          · subst hyz
            rw [if_neg hxy]
            exact hab
          · rw [if_neg hyz] at hbc
            have g2 : y.toNat < z.toNat := of_decide_eq_true hbc
            have g3 : x.toNat < z.toNat := Nat.lt_trans g1 g2
            have hxz : x ≠ z := by
              intro h
              subst h
              omega
            rw [if_neg hxz]
            simpa using g3

theorem strLe_total (a b : String) : strLe a b = true ∨ strLe b a = true :=
  listCharLe_total a.data b.data

theorem strLe_trans (a b c : String)
    (hab : strLe a b = true) (hbc : strLe b c = true) : strLe a c = true :=
  listCharLe_trans a.data b.data c.data hab hbc

theorem aLookup_upsert_self (l : List (String × α)) (k : String) (v : α) :
    aLookup (upsert l k v) k = some v := by
  induction l with
  | nil => simp [upsert, aLookup]
  | cons p t ih =>
    obtain ⟨pk, pv⟩ := p
    simp only [upsert]
    by_cases h : pk = k
    · simp [h, aLookup]
    · simp [aLookup, h, ih]

theorem aLookup_upsert_ne (l : List (String × α)) (k k2 : String) (v : α)
    (h : k2 ≠ k) : aLookup (upsert l k v) k2 = aLookup l k2 := by
  have hk : k ≠ k2 := Ne.symm h
  induction l with
  | nil =>
    simp only [upsert, aLookup]
    rw [if_neg hk]
  | cons p t ih =>
    obtain ⟨pk, pv⟩ := p
    simp only [upsert]
    by_cases hpk : pk = k
    · subst hpk
      simp only [aLookup]
      rw [if_neg hk, if_neg hk]
    · simp only [if_neg hpk, aLookup]
      by_cases hk2 : pk = k2
      · simp [hk2]
      · simp [hk2, ih]

theorem aLookup_upsert_isSome (l : List (String × α)) (k k2 : String) (v : α)
    (h : (aLookup l k2).isSome) : (aLookup (upsert l k v) k2).isSome := by
  by_cases hk : k2 = k
  · subst hk; simp [aLookup_upsert_self]
  · rwa [aLookup_upsert_ne l k k2 v hk]

theorem upsert_keys (l : List (String × α)) (k : String) (v : α) :
    (upsert l k v).map Prod.fst = l.map Prod.fst ∨
    (upsert l k v).map Prod.fst = l.map Prod.fst ++ [k] := by
  induction l with
  | nil => right; simp [upsert]
  | cons p t ih =>
    obtain ⟨pk, pv⟩ := p
    simp only [upsert]
    by_cases h : pk = k
    · left; simp [h]
    · rcases ih with ih | ih
      · left; simp [if_neg h, ih]
      · right; simp [if_neg h, ih]

theorem upsert_keys_nodup (l : List (String × α)) (k : String) (v : α)
    (hnd : (l.map Prod.fst).Nodup) (hmem : (aLookup l k).isSome ∨ k ∉ l.map Prod.fst) :
    ((upsert l k v).map Prod.fst).Nodup := by
  induction l with
  | nil => simp [upsert]
  | cons p t ih =>
    obtain ⟨pk, pv⟩ := p
    simp only [upsert]
    by_cases h : pk = k
    · subst h
      simpa using hnd
    · simp only [if_neg h, List.map_cons, List.nodup_cons] at hnd ⊢
      obtain ⟨hpk, hnd⟩ := hnd
      have hmem2 : (aLookup t k).isSome ∨ k ∉ t.map Prod.fst := by
        rcases hmem with hm | hm
        · left
          simpa [aLookup, h] using hm
        · right
          intro hk
          exact hm (by simp [hk])
      refine ⟨?_, ih hnd hmem2⟩
      intro hk
      rcases upsert_keys t k v with he | he
      · rw [he] at hk; exact hpk hk
      · rw [he] at hk
        rcases List.mem_append.mp hk with hk | hk
        · exact hpk hk
        · simp at hk
          exact h hk

theorem mem_enumF (p : Nat × α) (k : Nat) (l : List α) :
    p ∈ enumF k l ↔ ∃ j, ∃ (h : j < l.length), p = (k + j, l.get ⟨j, h⟩) := by
  induction l generalizing k with
  | nil => simp [enumF]
  | cons x t ih =>
    simp only [enumF, List.mem_cons]
    constructor
    · rintro (h | h)
      · exact ⟨0, by simp, by simpa using h⟩
      · obtain ⟨j, hj, he⟩ := (ih (k + 1)).mp h
        refine ⟨j + 1, by simpa using hj, ?_⟩
        simpa [Nat.add_assoc, Nat.add_comm 1 j] using he
    · rintro ⟨j, hj, he⟩
      cases j with
      | zero => left; simpa using he
      | succ j =>
        right
        refine (ih (k + 1)).mpr ⟨j, by simpa using hj, ?_⟩
        simpa [Nat.add_assoc, Nat.add_comm 1 j] using he

theorem mem_modifyAt (f : α → α) (i : Nat) (l : List α) (x : α)
    (hx : x ∈ modifyAt f i l) :
    x ∈ l ∨ ∃ (h : i < l.length), x = f (l.get ⟨i, h⟩) := by
  induction l generalizing i with
  | nil => simp [modifyAt] at hx
  | cons a t ih =>
    cases i with
    | zero =>
      rcases List.mem_cons.mp hx with h | h
      · right; exact ⟨by simp, by simpa using h⟩
      · left; exact List.mem_cons_of_mem _ h
    | succ i =>
      rcases List.mem_cons.mp hx with h | h
      · left; simp [h]
      · rcases ih i h with h2 | ⟨hlt, h2⟩
        · left; exact List.mem_cons_of_mem _ h2
        · right; exact ⟨by simpa using hlt, by simpa using h2⟩

theorem sum_map_modifyAt (g : α → Nat) (f : α → α) (l : List α) (i : Nat)
    (h : i < l.length) :
    ((modifyAt f i l).map g).sum + g (l.get ⟨i, h⟩) =
      (l.map g).sum + g (f (l.get ⟨i, h⟩)) := by
  induction l generalizing i with
  | nil => simp at h
  | cons a t ih =>
    cases i with
    | zero => simp [modifyAt]; omega
    | succ i =>
      have hi : i < t.length := by simpa using h
      have := ih i hi
      simp only [modifyAt, List.map_cons, List.sum_cons, List.get_cons_succ]
      omega

theorem strLe_antisymm (a b : String)
    (hab : strLe a b = true) (hba : strLe b a = true) : a = b := by
  have key : ∀ x y : List Char,
      listCharLe x y = true → listCharLe y x = true → x = y := by
    intro x
    induction x with
    | nil =>
      intro y _ h
      cases y with
      | nil => rfl
      | cons _ _ => simp [listCharLe] at h
    | cons c cs ih =>
      intro y h1 h2
      cases y with
      | nil => simp [listCharLe] at h1
      | cons d ds =>
        simp only [listCharLe] at h1 h2
        by_cases hcd : c = d
        · subst hcd
          simp only [if_pos rfl] at h1 h2
          rw [ih ds h1 h2]
        · have hdc : d ≠ c := fun h => hcd h.symm
          rw [if_neg hcd] at h1
          rw [if_neg hdc] at h2
          have g1 : c.toNat < d.toNat := of_decide_eq_true h1
          have g2 : d.toNat < c.toNat := of_decide_eq_true h2
          omega
  exact String.ext (key a.data b.data hab hba)

/-! ### Lemmas about the seat allocator -/

theorem mem_keys_isSome (l : List (String × α)) (k : String)
    (h : k ∈ l.map Prod.fst) : (aLookup l k).isSome := by
  induction l with
  | nil => simp at h
  | cons p t ih =>
    obtain ⟨pk, pv⟩ := p
    simp only [aLookup]
    by_cases hk : pk = k
    · simp [hk]
    · rw [if_neg hk]
      apply ih
      rw [List.map_cons] at h
      rcases List.mem_cons.mp h with h2 | h2
      · exact absurd h2.symm hk
      · exact h2

theorem aLookup_isSome_mem (l : List (String × α)) (k : String)
    (h : (aLookup l k).isSome) : k ∈ l.map Prod.fst := by
  induction l with
  | nil => simp [aLookup] at h
  | cons p t ih =>
    obtain ⟨pk, pv⟩ := p
    simp only [aLookup] at h
    by_cases hk : pk = k
    · simp [hk]
    · rw [if_neg hk] at h
      rw [List.map_cons]
      exact List.mem_cons.mpr (Or.inr (ih h))

theorem buildCS_fold (students : List SStudent) (courses : List SCourse)
    (acc : List (String × List String))
    (hacc : ∀ k v, aLookup acc k = some v → v = regList k students) :
    (∀ k v, aLookup (courses.foldl
        (fun a c => upsert a c.sNo (regList c.sNo students)) acc) k = some v →
      v = regList k students) ∧
    (∀ k, (aLookup acc k).isSome →
      (aLookup (courses.foldl
        (fun a c => upsert a c.sNo (regList c.sNo students)) acc) k).isSome) ∧
    (∀ c ∈ courses, (aLookup (courses.foldl
        (fun a c => upsert a c.sNo (regList c.sNo students)) acc) c.sNo).isSome) := by
  induction courses generalizing acc with
  | nil =>
    refine ⟨hacc, fun k hk => hk, ?_⟩
    intro c hc
    simp at hc
  | cons c rest ih =>
    simp only [List.foldl_cons]
    have hacc2 : ∀ k v, aLookup (upsert acc c.sNo (regList c.sNo students)) k = some v →
        v = regList k students := by
      intro k v hkv
      by_cases hk : k = c.sNo
      · subst hk
        rw [aLookup_upsert_self] at hkv
        exact (Option.some.injEq _ _ ▸ hkv).symm ▸ rfl
      · rw [aLookup_upsert_ne _ _ _ _ hk] at hkv
        exact hacc k v hkv
    obtain ⟨g1, g2, g3⟩ := ih _ hacc2
    refine ⟨g1, ?_, ?_⟩
    · intro k hk
      exact g2 k (aLookup_upsert_isSome _ _ _ _ hk)
    · intro c2 hc2
      rcases List.mem_cons.mp hc2 with h | h
      · subst h
        apply g2
        simp [aLookup_upsert_self]
      · exact g3 c2 h

theorem buildCS_lookup (courses : List SCourse) (students : List SStudent)
    (c : SCourse) (hc : c ∈ courses) :
    aLookup (buildCS courses students) c.sNo = some (regList c.sNo students) := by
  obtain ⟨g1, _, g3⟩ := buildCS_fold students courses [] (by intro k v h; simp [aLookup] at h)
  have hsome := g3 c hc
  obtain ⟨v, hv⟩ := Option.isSome_iff_exists.mp hsome
  unfold buildCS
  rw [hv, g1 _ _ hv]

theorem buildCS_keys_nodup (courses : List SCourse) (students : List SStudent) :
    ((buildCS courses students).map Prod.fst).Nodup := by
  suffices h : ∀ (cl : List SCourse) (acc : List (String × List String)),
      (acc.map Prod.fst).Nodup →
      ((cl.foldl (fun a c => upsert a c.sNo (regList c.sNo students)) acc).map
        Prod.fst).Nodup by
    exact h courses [] (by simp)
  intro cl
  induction cl with
  | nil => intro acc hacc; simpa using hacc
  | cons c rest ih =>
    intro acc hacc
    simp only [List.foldl_cons]
    apply ih
    apply upsert_keys_nodup _ _ _ hacc
    by_cases hk : c.sNo ∈ acc.map Prod.fst
    · left; exact mem_keys_isSome _ _ hk
    · right; exact hk

theorem mem_blockCand {sno : String} {ri0 : Nat} {bk0 : String}
    {blk other : BlockSt} {c : Nat × String × Nat}
    (h : c ∈ blockCand sno ri0 bk0 blk other) :
    c = (ri0, bk0, capLeft blk) ∧ 0 < capLeft blk := by
  unfold blockCand at h
  split at h
  · simp at h
  · split at h
    · simp at h
    · rename_i h2
      simp only [List.mem_singleton] at h
      exact ⟨h, Nat.pos_of_ne_zero h2⟩

theorem mem_collectCands {sno : String} {blocks : List RB} {ri : Nat}
    {bk : String} {cl : Nat} (h : (ri, bk, cl) ∈ collectCands sno blocks) :
    ∃ (hlt : ri < blocks.length),
      ((bk = "A" ∧ cl = capLeft (blocks.get ⟨ri, hlt⟩).blkA) ∨
       (bk = "B" ∧ cl = capLeft (blocks.get ⟨ri, hlt⟩).blkB)) ∧ 0 < cl := by
  unfold collectCands at h
  rw [List.mem_flatten] at h
  obtain ⟨sub, hsub, hmem⟩ := h
  rw [List.mem_map] at hsub
  obtain ⟨p, hp, rfl⟩ := hsub
  rw [mem_enumF] at hp
  obtain ⟨j, hjlt, rfl⟩ := hp
  rcases List.mem_append.mp hmem with hm | hm
  · obtain ⟨he, hpos⟩ := mem_blockCand hm
    simp only [Prod.mk.injEq] at he
    obtain ⟨h1, h2, h3⟩ := he
    subst h2 h3
    have hlt : ri < blocks.length := by omega
    refine ⟨hlt, Or.inl ⟨rfl, ?_⟩, hpos⟩
    have : ri = j := by omega
    subst this
    rfl
  · obtain ⟨he, hpos⟩ := mem_blockCand hm
    simp only [Prod.mk.injEq] at he
    obtain ⟨h1, h2, h3⟩ := he
    subst h2 h3
    have hlt : ri < blocks.length := by omega
    refine ⟨hlt, Or.inr ⟨rfl, ?_⟩, hpos⟩
    have : ri = j := by omega
    subst this
    rfl

theorem filter_sno_batch (sno : String) (batch : List String) :
    (batch.map (fun u => (u, sno))).filter
      (fun p : String × String => decide (p.2 = sno)) =
      batch.map (fun u => (u, sno)) := by
  apply List.filter_eq_self.mpr
  intro a ha
  rw [List.mem_map] at ha
  obtain ⟨u, _, rfl⟩ := ha
  simp

theorem filter_sno_batch_ne (sno s2 : String) (batch : List String) (h : s2 ≠ sno) :
    (batch.map (fun u => (u, sno))).filter
      (fun p : String × String => decide (p.2 = s2)) = [] := by
  apply List.filter_eq_nil_iff.mpr
  intro a ha
  rw [List.mem_map] at ha
  obtain ⟨u, _, rfl⟩ := ha
  simpa using fun hh => h hh.symm

theorem sum_map_modifyAt_add (g : α → Nat) (f : α → α) (l : List α) (i : Nat)
    (hlt : i < l.length) (d : Nat) (hf : ∀ x, g (f x) = g x + d) :
    ((modifyAt f i l).map g).sum = (l.map g).sum + d := by
  have h := sum_map_modifyAt g f l i hlt
  rw [hf] at h
  omega

theorem sum_map_modifyAt_eq (g : α → Nat) (f : α → α) (l : List α) (i : Nat)
    (hf : ∀ x, g (f x) = g x) :
    ((modifyAt f i l).map g).sum = (l.map g).sum := by
  induction l generalizing i with
  | nil => cases i <;> rfl
  | cons a t ih =>
    cases i with
    | zero => simp [modifyAt, hf]
    | succ i => simp [modifyAt, ih i]

theorem placedCount_applyPlace (sno : String) (ri : Nat) (bk : String)
    (batch : List String) (blocks : List RB) (hlt : ri < blocks.length)
    (hbk : bk = "A" ∨ bk = "B") :
    placedCount sno (applyPlace sno ri bk batch blocks) =
      placedCount sno blocks + batch.length := by
  unfold placedCount applyPlace
  apply sum_map_modifyAt_add _ _ _ _ hlt
  intro rb
  rcases hbk with hbk | hbk <;> subst hbk <;>
    simp [placedIn, List.filter_append, filter_sno_batch] <;> omega

theorem placedCount_applyPlace_ne (sno s2 : String) (ri : Nat) (bk : String)
    (batch : List String) (blocks : List RB) (hne : s2 ≠ sno) :
    placedCount s2 (applyPlace sno ri bk batch blocks) = placedCount s2 blocks := by
  unfold placedCount applyPlace
  apply sum_map_modifyAt_eq
  intro rb
  by_cases hbk : bk = "A" <;>
    simp [hbk, placedIn, List.filter_append, filter_sno_batch_ne sno s2 batch hne]

theorem capOK_applyPlace {sno : String} {ri : Nat} {bk : String}
    {batch : List String} {blocks : List RB} (hlt : ri < blocks.length)
    (hcap : capOK blocks)
    (hfit : (bk = "A" ∧ batch.length ≤ capLeft (blocks.get ⟨ri, hlt⟩).blkA) ∨
            (bk = "B" ∧ batch.length ≤ capLeft (blocks.get ⟨ri, hlt⟩).blkB)) :
    capOK (applyPlace sno ri bk batch blocks) := by
  intro rb hrb
  rcases mem_modifyAt _ _ _ _ hrb with hm | ⟨hlt2, hm⟩
  · exact hcap rb hm
  · subst hm
    obtain ⟨hA, hB⟩ := hcap _ (List.get_mem blocks ri hlt2)
    unfold capLeft at hfit
    have hfit2 : (bk = "A" ∧ batch.length ≤ (blocks.get ⟨ri, hlt2⟩).blkA.capacity -
          (blocks.get ⟨ri, hlt2⟩).blkA.assigned.length) ∨
        (bk = "B" ∧ batch.length ≤ (blocks.get ⟨ri, hlt2⟩).blkB.capacity -
          (blocks.get ⟨ri, hlt2⟩).blkB.assigned.length) := hfit
    rcases hfit2 with ⟨hbk, hle⟩ | ⟨hbk, hle⟩ <;> subst hbk <;>
      simp only [List.get_eq_getElem] at hA hB hle <;>
      constructor <;> simp <;> omega

theorem mem_collectCands2 {sno : String} {blocks : List RB}
    (c : Nat × String × Nat) (h : c ∈ collectCands sno blocks) :
    ∃ (hlt : c.1 < blocks.length),
      ((c.2.1 = "A" ∧ c.2.2 = capLeft (blocks.get ⟨c.1, hlt⟩).blkA) ∨
       (c.2.1 = "B" ∧ c.2.2 = capLeft (blocks.get ⟨c.1, hlt⟩).blkB)) ∧ 0 < c.2.2 := by
  obtain ⟨ri, bk, cl⟩ := c
  exact mem_collectCands h

theorem placeGo_ok {sno : String} : ∀ (fuel : Nat) (blocks : List RB)
    (q : List String) {blocks2 : List RB},
    placeGo sno fuel blocks q = .ok blocks2 →
    placedCount sno blocks2 = placedCount sno blocks + q.length ∧
    (∀ s2, s2 ≠ sno → placedCount s2 blocks2 = placedCount s2 blocks) ∧
    (capOK blocks → capOK blocks2) := by
  intro fuel
  induction fuel with
  | zero =>
    intro blocks q blocks2 h
    cases q with
    | nil =>
      simp only [placeGo, Except.ok.injEq] at h
      subst h
      exact ⟨by simp, fun _ _ => rfl, fun hc => hc⟩
    | cons x xs => simp [placeGo] at h
  | succ fuel ih =>
    intro blocks q blocks2 h
    cases q with
    | nil =>
      simp only [placeGo, Except.ok.injEq] at h
      subst h
      exact ⟨by simp, fun _ _ => rfl, fun hc => hc⟩
    | cons x xs =>
      rw [placeGo] at h
      cases hm : pySortBy candLe (collectCands sno blocks) with
      | nil => rw [hm] at h; simp at h
      | cons best rest =>
        rw [hm] at h
        have h3 : placeGo sno fuel
            (applyPlace sno best.1 best.2.1
              ((x :: xs).take (min best.2.2 (x :: xs).length)) blocks)
            ((x :: xs).drop (min best.2.2 (x :: xs).length)) = .ok blocks2 := h
        have hbm : best ∈ collectCands sno blocks :=
          (mem_pySortBy _ _ _).mp (hm ▸ List.mem_cons_self _ _)
        obtain ⟨hlt, hdis, hpos⟩ := mem_collectCands2 best hbm
        have hbk : best.2.1 = "A" ∨ best.2.1 = "B" := by
          rcases hdis with ⟨h1, _⟩ | ⟨h1, _⟩
          · left; exact h1
          · right; exact h1
        have htle : min best.2.2 (x :: xs).length ≤ (x :: xs).length :=
          Nat.min_le_right _ _
        have hbatch : ((x :: xs).take (min best.2.2 (x :: xs).length)).length =
            min best.2.2 (x :: xs).length := by
          rw [List.length_take]
          omega
        obtain ⟨g1, g2, g3⟩ := ih _ _ h3
        refine ⟨?_, ?_, ?_⟩
        · rw [g1, placedCount_applyPlace sno best.1 best.2.1 _ blocks hlt hbk, hbatch,
            List.length_drop]
          have hpos2 : 0 < min best.2.2 (x :: xs).length := by
            simp only [List.length_cons]
            omega
          simp only [List.length_cons] at htle ⊢
          omega
        · intro s2 hs2
          rw [g2 s2 hs2, placedCount_applyPlace_ne sno s2 best.1 best.2.1 _ blocks hs2]
        · intro hcap
          apply g3
          apply capOK_applyPlace hlt hcap
          rcases hdis with ⟨h1, h2⟩ | ⟨h1, h2⟩
          · left
            refine ⟨h1, ?_⟩
            rw [hbatch, ← h2]
            exact Nat.min_le_left _ _
          · right
            refine ⟨h1, ?_⟩
            rw [hbatch, ← h2]
            exact Nat.min_le_left _ _

theorem placeGo_no_insufficient {sno : String} : ∀ (fuel : Nat)
    (blocks : List RB) (q : List String) {e : SErr},
    placeGo sno fuel blocks q = .error e → e ≠ .insufficient := by
  intro fuel
  induction fuel with
  | zero =>
    intro blocks q e h
    cases q with
    | nil => simp [placeGo] at h
    | cons x xs =>
      simp only [placeGo, Except.error.injEq] at h
      subst h
      simp
  | succ fuel ih =>
    intro blocks q e h
    cases q with
    | nil => simp [placeGo] at h
    | cons x xs =>
      rw [placeGo] at h
      cases hm : pySortBy candLe (collectCands sno blocks) with
      | nil =>
        rw [hm] at h
        have h2 : (Except.error (SErr.unplaceable sno) :
            Except SErr (List RB)) = .error e := h
        simp only [Except.error.injEq] at h2
        subst h2
        simp
      | cons best rest =>
        rw [hm] at h
        have h3 : placeGo sno fuel
            (applyPlace sno best.1 best.2.1
              ((x :: xs).take (min best.2.2 (x :: xs).length)) blocks)
            ((x :: xs).drop (min best.2.2 (x :: xs).length)) = .error e := h
        exact ih _ _ h3

theorem placeGo_fuel_ok {sno : String} : ∀ (fuel : Nat) (blocks : List RB)
    (q : List String), q.length ≤ fuel →
    placeGo sno fuel blocks q ≠ .error .outOfFuel := by
  intro fuel
  induction fuel with
  | zero =>
    intro blocks q hq
    cases q with
    | nil => simp [placeGo]
    | cons x xs => simp at hq
  | succ fuel ih =>
    intro blocks q hq
    cases q with
    | nil => simp [placeGo]
    | cons x xs =>
      rw [placeGo]
      cases hm : pySortBy candLe (collectCands sno blocks) with
      | nil => simp
      | cons best rest =>
        have hbm : best ∈ collectCands sno blocks :=
          (mem_pySortBy _ _ _).mp (hm ▸ List.mem_cons_self _ _)
        obtain ⟨hlt, hdis, hpos⟩ := mem_collectCands2 best hbm
        intro hcontra
        have h3 : placeGo sno fuel
            (applyPlace sno best.1 best.2.1
              ((x :: xs).take (min best.2.2 (x :: xs).length)) blocks)
            ((x :: xs).drop (min best.2.2 (x :: xs).length)) =
            .error .outOfFuel := hcontra
        have hlen : ((x :: xs).drop (min best.2.2 (x :: xs).length)).length ≤ fuel := by
          rw [List.length_drop]
          simp only [List.length_cons] at hq ⊢
          omega
        exact ih _ _ hlen h3

theorem placeAll_ok {cs : List (String × List String)} :
    ∀ (order : List String) (blocks : List RB) {blocks2 : List RB},
    placeAll cs order blocks = .ok blocks2 → order.Nodup →
    (∀ sno ∈ order, placedCount sno blocks2 = placedCount sno blocks + demandOf cs sno) ∧
    (∀ sno, sno ∉ order → placedCount sno blocks2 = placedCount sno blocks) ∧
    (capOK blocks → capOK blocks2) := by
  intro order
  induction order with
  | nil =>
    intro blocks blocks2 h _
    simp only [placeAll, Except.ok.injEq] at h
    subst h
    exact ⟨by simp, fun _ _ => rfl, fun hc => hc⟩
  | cons sno rest ih =>
    intro blocks blocks2 h hnd
    rw [placeAll] at h
    cases hg : placeGo sno ((aLookup cs sno).getD []).length blocks
        ((aLookup cs sno).getD []) with
    | error e => rw [hg] at h; simp at h
    | ok b1 =>
      rw [hg] at h
      obtain ⟨p1, p2, p3⟩ := placeGo_ok _ _ _ hg
      rw [List.nodup_cons] at hnd
      obtain ⟨hns, hnd2⟩ := hnd
      obtain ⟨q1, q2, q3⟩ := ih b1 h hnd2
      refine ⟨?_, ?_, fun hc => q3 (p3 hc)⟩
      · intro s2 hs2
        rcases List.mem_cons.mp hs2 with he | he
        · subst he
          rw [q2 s2 hns, p1]
          rfl
        · have hne : s2 ≠ sno := fun hh => hns (hh ▸ he)
          rw [q1 s2 he, p2 s2 hne]
      · intro s2 hs2
        rw [List.mem_cons, not_or] at hs2
        obtain ⟨hne, hnr⟩ := hs2
        rw [q2 s2 hnr, p2 s2 hne]

theorem placeAll_no_insufficient {cs : List (String × List String)} :
    ∀ (order : List String) (blocks : List RB) {e : SErr},
    placeAll cs order blocks = .error e → e ≠ .insufficient := by
  intro order
  induction order with
  | nil =>
    intro blocks e h
    simp [placeAll] at h
  | cons sno rest ih =>
    intro blocks e h
    rw [placeAll] at h
    cases hg : placeGo sno ((aLookup cs sno).getD []).length blocks
        ((aLookup cs sno).getD []) with
    | error e2 =>
      rw [hg] at h
      simp only [Except.error.injEq] at h
      subst h
      exact placeGo_no_insufficient _ _ _ hg
    | ok b1 =>
      rw [hg] at h
      exact ih b1 h

theorem countP_range_get (p : α → Bool) (l : List α) :
    ∀ (n : Nat), l.length ≤ n →
    (List.range n).countP (fun i => ((l.get? i).map p).getD false) = l.countP p := by
  induction l with
  | nil =>
    intro n _
    rw [List.countP_eq_length_filter, List.countP_eq_length_filter]
    rw [List.filter_eq_nil_iff.mpr (by intro i _; simp [List.get?_nil])]
    simp
  | cons a t ih =>
    intro n hn
    cases n with
    | zero => simp at hn
    | succ m =>
      rw [List.range_succ_eq_map, List.countP_cons, List.countP_map]
      have hc : List.countP
          ((fun i => (((a :: t).get? i).map p).getD false) ∘ Nat.succ)
            (List.range m) =
          List.countP (fun i => ((t.get? i).map p).getD false) (List.range m) := by
        apply List.countP_congr
        intro i _
        simp [Function.comp, List.get?_cons_succ]
      rw [hc, ih m (by simpa using hn)]
      simp [List.countP_cons, List.get?_cons_zero]

theorem countP_blockRows (date slot : String) (courses : List SCourse)
    (rn bk : String) (b : BlockSt) (sno : String) (hs : sno ≠ "")
    (hcap : b.assigned.length ≤ b.capacity) :
    (blockRows date slot courses rn bk b).countP
        (fun r => decide (r.courseSNo = sno)) = placedIn sno b := by
  unfold blockRows
  rw [List.countP_map]
  trans (List.countP (fun i =>
      ((b.assigned.get? i).map (fun a => decide (a.2 = sno))).getD false)
    (List.range b.capacity))
  · apply List.countP_congr
    intro i _
    cases hg : b.assigned.get? i with
    | none =>
      have hg2 := hg
      rw [List.get?_eq_getElem?] at hg2
      simp [Function.comp, hg, hg2, Ne.symm hs]
    | some rec =>
      have hg2 := hg
      rw [List.get?_eq_getElem?] at hg2
      simp [Function.comp, hg, hg2]
  · rw [countP_range_get _ _ _ hcap]
    unfold placedIn
    rw [List.countP_eq_length_filter]

theorem countP_buildAssignments (date slot : String) (courses : List SCourse)
    (blocks : List RB) (sno : String) (hs : sno ≠ "") (hcap : capOK blocks) :
    (buildAssignments date slot courses blocks).countP
        (fun r => decide (r.courseSNo = sno)) = placedCount sno blocks := by
  induction blocks with
  | nil => simp [buildAssignments, placedCount]
  | cons rb rest ih =>
    have hcap2 : capOK rest := fun x hx => hcap x (List.mem_cons_of_mem _ hx)
    obtain ⟨hA, hB⟩ := hcap rb (List.mem_cons_self _ _)
    simp only [buildAssignments, List.map_cons, List.flatten_cons, List.countP_append]
    rw [countP_blockRows date slot courses rb.room "A" rb.blkA sno hs hA,
      countP_blockRows date slot courses rb.room "B" rb.blkB sno hs hB]
    have ih2 := ih hcap2
    simp only [buildAssignments] at ih2
    rw [ih2]
    simp [placedCount]

theorem placedCount_initBlocks (sno : String) (rooms : List SRoom) :
    placedCount sno (initBlocks rooms) = 0 := by
  induction rooms with
  | nil => simp [placedCount, initBlocks]
  | cons r rest ih =>
    simp only [placedCount, initBlocks, List.map_cons, List.map_map, List.sum_cons] at ih ⊢
    simpa [placedIn] using ih

theorem capOK_initBlocks (rooms : List SRoom) : capOK (initBlocks rooms) := by
  intro rb hrb
  unfold initBlocks at hrb
  rw [List.mem_map] at hrb
  obtain ⟨r, _, rfl⟩ := hrb
  simp

theorem mainRun_eq_map (students : List SStudent) (rooms : List SRoom)
    (m : List ((String × String) × List SCourse)) :
    mainRun students rooms m = m.map (processOne students rooms) := by
  unfold mainRun
  suffices h : ∀ acc, m.foldl (fun acc item => acc ++ [processOne students rooms item])
      acc = acc ++ m.map (processOne students rooms) by
    simpa using h []
  induction m with
  | nil => simp
  | cons it rest ih =>
    intro acc
    rw [List.foldl_cons, ih (acc ++ [processOne students rooms it])]
    simp

/-! ### Claim theorems about the seat allocator -/

/-- C1 (code bug evidence): on one room with block A of 1 seat and block
B of 5 seats, and two courses of demand 3 each, the scheduler returns
normally yet places course "2" in *both* blocks of room R1 (1 seat in A,
2 seats in B): the pairing check only inspects a block's first committed
course, so the room-pairing invariant claimed by the spec fails. -/
theorem c1_room_pairing_violated :
    (rowsOfResult (schedule_for_slot_use_both "d1" "Slot-1" courses1 students1
        rooms1)).countP (fun r => decide (r.blk = "A" ∧ r.courseSNo = "2")) = 1 ∧
    (rowsOfResult (schedule_for_slot_use_both "d1" "Slot-1" courses1 students1
        rooms1)).countP (fun r => decide (r.blk = "B" ∧ r.courseSNo = "2")) = 2 := by
  decide

/-- C4: demand conservation.  When `schedule_for_slot_use_both` returns
normally, then for every course of the session (with a nonempty
identity), the number of returned seat rows carrying that course's
identity equals the number of students in the session's student list
registered for it.  (The function cannot return a partial allocation:
its only other outcomes are the raised errors of `SErr`.) -/
theorem c4_demand_conservation (date slot : String) (courses : List SCourse)
    (students : List SStudent) (rooms : List SRoom) (res : List SeatRec)
    (hres : schedule_for_slot_use_both date slot courses students rooms = .ok res)
    (c : SCourse) (hc : c ∈ courses) (hne : c.sNo ≠ "") :
    (res.filter (fun r => decide (r.courseSNo = c.sNo))).length =
      (students.filter (fun s => s.tests.contains c.sNo)).length := by
  unfold schedule_for_slot_use_both at hres
  dsimp only at hres
  split at hres
  · simp at hres
  · cases hp : placeAll (buildCS courses students)
        (courseOrder (buildCS courses students)) (initBlocks rooms) with
    | error e => rw [hp] at hres; simp at hres
    | ok blocks =>
      rw [hp] at hres
      simp only [Except.ok.injEq] at hres
      subst hres
      have hkeys : (((buildCS courses students)).map
          (fun p : String × List String => p.1)).Nodup :=
        buildCS_keys_nodup courses students
      have hnd : (courseOrder (buildCS courses students)).Nodup :=
        (pySortBy_perm _ _).nodup_iff.mpr hkeys
      have hlook := buildCS_lookup courses students c hc
      have hmemkeys : c.sNo ∈ ((buildCS courses students)).map
          (fun p : String × List String => p.1) :=
        aLookup_isSome_mem _ _ (by rw [hlook]; rfl)
      have hmem : c.sNo ∈ courseOrder (buildCS courses students) :=
        (pySortBy_perm _ _).mem_iff.mpr hmemkeys
      obtain ⟨g1, _, g3⟩ := placeAll_ok _ _ hp hnd
      have hplaced := g1 c.sNo hmem
      rw [placedCount_initBlocks] at hplaced
      have hcap := g3 (capOK_initBlocks rooms)
      have hdem : demandOf (buildCS courses students) c.sNo =
          (students.filter (fun s => s.tests.contains c.sNo)).length := by
        unfold demandOf
        rw [hlook]
        simp [regList]
      rw [← List.countP_eq_length_filter,
        countP_buildAssignments date slot courses blocks c.sNo hne hcap,
        hplaced, hdem]
      omega

/-- C4 witness: the conservation theorem applied to the concrete run on
`courses1`/`students1`/`rooms1`, for course "1" of demand 3. -/
theorem c4_witness :
    (⟨"1", "C1"⟩ : SCourse) ∈ courses1 ∧ ("1" : String) ≠ "" ∧
    ((rowsOfResult (schedule_for_slot_use_both "d1" "Slot-1" courses1 students1
        rooms1)).filter (fun r => decide (r.courseSNo = "1"))).length =
      (students1.filter (fun s => s.tests.contains "1")).length :=
  ⟨by decide, by decide,
    c4_demand_conservation "d1" "Slot-1" courses1 students1 rooms1 _ rfl
      ⟨"1", "C1"⟩ (by decide) (by decide)⟩

/-- C5: the scheduler raises the insufficient-capacity error exactly when
the session's total registration demand exceeds the total seat capacity
(checked before any placement, so no rows are produced); `main` processes
every session independently (its loop equals a per-session map), and a
session whose scheduler call raises gets no seat table (`none`) while the
other entries are untouched. -/
theorem c5_insufficient_error_scoping :
    (∀ (date slot : String) (courses : List SCourse) (students : List SStudent)
        (rooms : List SRoom),
      isInsufficient (schedule_for_slot_use_both date slot courses students rooms) =
          true ↔
        totalNeeded (buildCS courses students) > totalSeats rooms) ∧
    (∀ (students : List SStudent) (rooms : List SRoom)
        (m : List ((String × String) × List SCourse)),
      mainRun students rooms m = m.map (processOne students rooms)) ∧
    (∀ (students : List SStudent) (rooms : List SRoom)
        (item : (String × String) × List SCourse) (e : SErr),
      schedule_for_slot_use_both item.1.1 item.1.2 item.2
          (students.filter (fun s =>
            s.tests.any (fun t => (item.2.map (fun c => c.sNo)).contains t))) rooms =
        .error e →
      processOne students rooms item = (item.1, none)) := by
  refine ⟨?_, mainRun_eq_map, ?_⟩
  · intro date slot courses students rooms
    unfold schedule_for_slot_use_both
    dsimp only
    split
    · rename_i hdem
      simpa [isInsufficient] using hdem
    · rename_i hdem
      cases hp : placeAll (buildCS courses students)
          (courseOrder (buildCS courses students)) (initBlocks rooms) with
      | error e =>
        have hni := placeAll_no_insufficient _ _ hp
        have hfalse : isInsufficient (Except.error e) = false := by
          cases e with
          | insufficient => exact absurd rfl hni
          | unplaceable s => rfl
          | outOfFuel => rfl
        rw [hfalse]
        simp only [Bool.false_eq_true, false_iff]
        exact hdem
      | ok blocks =>
        have hfalse : isInsufficient
            (Except.ok (buildAssignments date slot courses blocks)) = false := rfl
        rw [hfalse]
        simp only [Bool.false_eq_true, false_iff]
        exact hdem
  · intro students rooms item e herr
    unfold processOne
    dsimp only
    split
    · rfl
    · rw [herr]

/-- C5 witness: with one course of demand 1 and no rooms, the scheduler
raises the insufficient-capacity error and `main` writes no table for
the session; the theorem is applied at this input. -/
theorem c5_witness :
    isInsufficient (schedule_for_slot_use_both "d" "s" [⟨"1", "C"⟩]
      [⟨"u1", ["1"]⟩] []) = true ∧
    processOne [⟨"u1", ["1"]⟩] [] (("d", "s"), [⟨"1", "C"⟩]) = (("d", "s"), none) := by
  constructor
  · exact (c5_insufficient_error_scoping.1 "d" "s" [⟨"1", "C"⟩]
      [⟨"u1", ["1"]⟩] []).mpr (by decide)
  · exact c5_insufficient_error_scoping.2.2 [⟨"u1", ["1"]⟩] []
      (("d", "s"), [⟨"1", "C"⟩]) .insufficient rfl

/-- C6 (counterexample): with two courses of equal demand listed in the
order "2", "1", the implemented course order keeps the course-list order
("2" before "1"), while the spec's order (descending demand, ties by
course identity ascending, `specCourseOrder`) puts "1" first. -/
theorem c6_counterexample :
    courseOrder (buildCS courses2 students2) = ["2", "1"] ∧
    specCourseOrder (buildCS courses2 students2) = ["1", "2"] ∧
    demandOf (buildCS courses2 students2) "1" =
      demandOf (buildCS courses2 students2) "2" ∧
    (["2", "1"] : List String) ≠ ["1", "2"] := by
  decide

theorem posIn_append_left [DecidableEq α] (p q : List α) (a : α) (ha : a ∈ p) :
    posIn (p ++ q) a = posIn p a := by
  induction p with
  | nil => simp at ha
  | cons h t ih =>
    simp only [List.cons_append, posIn, List.append_eq]
    by_cases hh : h = a
    · simp [hh]
    · rw [if_neg hh, if_neg hh, ih]
      rcases List.mem_cons.mp ha with h2 | h2
      · exact absurd h2.symm hh
      · exact h2

theorem posIn_append_right [DecidableEq α] (p q : List α) (a : α) (ha : a ∉ p) :
    posIn (p ++ q) a = p.length + posIn q a := by
  induction p with
  | nil => simp
  | cons h t ih =>
    have hh : h ≠ a := fun he => ha (he ▸ List.mem_cons_self _ _)
    have ha2 : a ∉ t := fun he => ha (List.mem_cons_of_mem _ he)
    simp only [List.cons_append, posIn, List.append_eq, if_neg hh, ih ha2,
      List.length_cons]
    omega

theorem posIn_lt_length [DecidableEq α] (p : List α) (a : α) (ha : a ∈ p) :
    posIn p a < p.length := by
  induction p with
  | nil => simp at ha
  | cons h t ih =>
    simp only [posIn, List.length_cons]
    by_cases hh : h = a
    · simp [hh]
    · rw [if_neg hh]
      rcases List.mem_cons.mp ha with h2 | h2
      · exact absurd h2.symm hh
      · have := ih h2
        omega

theorem insertBy_pairwise_rel [DecidableEq α] (key : α → Nat) (R : α → α → Prop)
    (x : α) (l : List α)
    (hsort : l.Pairwise (fun a b => decide (key b ≤ key a) = true))
    (hR : l.Pairwise R)
    (h1 : ∀ a ∈ l, key x ≤ key a → R a x)
    (h2 : ∀ a ∈ l, key a < key x → R x a) :
    (insertBy (fun a b => decide (key b ≤ key a)) x l).Pairwise R := by
  induction l with
  | nil => simp [insertBy]
  | cons h t ih =>
    rw [List.pairwise_cons] at hsort hR
    obtain ⟨hsh, hst⟩ := hsort
    obtain ⟨hRh, hRt⟩ := hR
    simp only [insertBy]
    split
    · rename_i hle
      have hle2 : key x ≤ key h := of_decide_eq_true hle
      refine List.Pairwise.cons ?_ (ih hst hRt
        (fun a ha hka => h1 a (List.mem_cons_of_mem _ ha) hka)
        (fun a ha hka => h2 a (List.mem_cons_of_mem _ ha) hka))
      intro b hb
      rcases List.mem_cons.mp ((insertBy_perm _ x t).mem_iff.mp hb) with hb | hb
      · subst hb
        exact h1 h (List.mem_cons_self _ _) hle2
      · exact hRh b hb
    · rename_i hle
      have hlt : key h < key x := by
        rcases Nat.lt_or_ge (key h) (key x) with h3 | h3
        · exact h3
        · exact absurd (decide_eq_true h3) hle
      refine List.Pairwise.cons ?_ (List.Pairwise.cons hRh hRt)
      intro b hb
      rcases List.mem_cons.mp hb with hb | hb
      · subst hb
        exact h2 b (List.mem_cons_self _ _) hlt
      · have hb2 : key b ≤ key h := of_decide_eq_true (hsh b hb)
        exact h2 b (List.mem_cons_of_mem _ hb) (by omega)

theorem pySortBy_stable [DecidableEq α] (key : α → Nat) (l : List α)
    (hnd : l.Nodup) :
    (pySortBy (fun a b => decide (key b ≤ key a)) l).Pairwise (fun a b =>
      key a > key b ∨ (key a = key b ∧ posIn l a < posIn l b)) := by
  suffices h : ∀ (rest p acc : List α), l = p ++ rest → acc.Perm p →
      acc.Pairwise (fun a b => decide (key b ≤ key a) = true) →
      acc.Pairwise (fun a b =>
        key a > key b ∨ (key a = key b ∧ posIn l a < posIn l b)) →
      (rest.foldl (fun acc x => insertBy (fun a b => decide (key b ≤ key a)) x acc)
          acc).Pairwise (fun a b =>
        key a > key b ∨ (key a = key b ∧ posIn l a < posIn l b)) by
    exact h l [] [] rfl (List.Perm.refl _) (by simp) (by simp)
  intro rest
  induction rest with
  | nil =>
    intro p acc _ _ _ hR
    simpa using hR
  | cons x xs ih =>
    intro p acc hl hperm hsort hR
    rw [List.foldl_cons]
    have htot : ∀ a b : α, decide (key b ≤ key a) = true ∨
        decide (key a ≤ key b) = true := by
      intro a b
      rcases Nat.le_total (key b) (key a) with h3 | h3
      · left; exact decide_eq_true h3
      · right; exact decide_eq_true h3
    have htrans : ∀ a b c : α, decide (key b ≤ key a) = true →
        decide (key c ≤ key b) = true → decide (key c ≤ key a) = true := by
      intro a b c h3 h4
      exact decide_eq_true (Nat.le_trans (of_decide_eq_true h4) (of_decide_eq_true h3))
    have hxp : x ∉ p := by
      rw [hl] at hnd
      have := (List.nodup_append.mp hnd).2.2
      intro hx
      exact this hx (List.mem_cons_self _ _)
    apply ih (p ++ [x])
    · rw [hl]
      simp
    · refine (insertBy_perm _ x acc).trans ?_
      refine (hperm.cons x).trans ?_
      exact (List.perm_append_singleton x p).symm
    · exact insertBy_pairwise _ htot htrans x acc hsort
    · apply insertBy_pairwise_rel key _ x acc hsort hR
      · intro a ha hka
        have hap : a ∈ p := hperm.mem_iff.mp ha
        rcases Nat.lt_or_ge (key x) (key a) with h3 | h3
        · left; omega
        · right
          have heq : key a = key x := by omega
          refine ⟨heq, ?_⟩
          rw [hl, posIn_append_left p (x :: xs) a hap,
            posIn_append_right p (x :: xs) x hxp]
          have h4 := posIn_lt_length p a hap
          have h5 : posIn (x :: xs) x = 0 := by simp [posIn]
          omega
      · intro a ha hka
        left
        omega

/-- C6 amended: the implemented course order is sorted by strictly
descending demand, with ties broken by the course's first-appearance
position in the session course list (Python's stable sort), and it is a
permutation of the course keys; the spec's "ties by course identity
ascending" is not what the code does (see `c6_counterexample`). -/
theorem c6_stable_order (courses : List SCourse) (students : List SStudent) :
    (courseOrder (buildCS courses students)).Perm
      ((buildCS courses students).map (fun p => p.1)) ∧
    (courseOrder (buildCS courses students)).Pairwise (fun a b =>
      demandOf (buildCS courses students) a > demandOf (buildCS courses students) b ∨
      (demandOf (buildCS courses students) a = demandOf (buildCS courses students) b ∧
        posIn ((buildCS courses students).map (fun p => p.1)) a <
          posIn ((buildCS courses students).map (fun p => p.1)) b)) := by
  constructor
  · exact pySortBy_perm _ _
  · exact pySortBy_stable (demandOf (buildCS courses students))
      ((buildCS courses students).map (fun p => p.1))
      (buildCS_keys_nodup courses students)

/-! ### Lemmas about the duty allocator -/

theorem mem_insertPair [DecidableEq β] (x y : β) (l : List β) :
    y ∈ insertPair x l ↔ y = x ∨ y ∈ l := by
  unfold insertPair
  split
  · rename_i hx
    constructor
    · exact fun h => Or.inr h
    · rintro (h | h)
      · exact h ▸ hx
      · exact h
  · simp [List.mem_cons]

theorem mem_erasePair [DecidableEq β] (x y : β) (l : List β) :
    y ∈ erasePair x l ↔ y ∈ l ∧ y ≠ x := by
  unfold erasePair
  rw [List.mem_filter]
  simp

theorem mem_eraseSess (x y : Session) (l : List Session) :
    y ∈ eraseSess x l ↔ y ∈ l ∧ y ≠ x := by
  unfold eraseSess
  rw [List.mem_filter]
  simp

theorem mem_slotsOf (slots : List (String × Session)) (n : String) (s : Session) :
    s ∈ slotsOf slots n ↔ (n, s) ∈ slots := by
  unfold slotsOf
  rw [List.mem_map]
  constructor
  · rintro ⟨p, hp, rfl⟩
    rw [List.mem_filter] at hp
    obtain ⟨hp1, hp2⟩ := hp
    have : p.1 = n := by simpa using hp2
    rwa [← this, Prod.mk.eta]
  · intro h
    exact ⟨(n, s), List.mem_filter.mpr ⟨h, by simp⟩, rfl⟩

theorem hasAdjConflict_false (S : List Session)
    (h : hasAdjConflict S = false) :
    ∀ p ∈ S, ∀ a ∈ adjacent p.2, (p.1, a) ∉ S := by
  intro p hp a ha hmem
  unfold hasAdjConflict at h
  rw [Bool.eq_false_iff] at h
  apply h
  rw [List.any_eq_true]
  exact ⟨p, hp, by rw [List.any_eq_true]; exact ⟨a, ha, by simpa using hmem⟩⟩

theorem adjacent_symm (a b : String) (h : a ∈ adjacent b) : b ∈ adjacent a := by
  unfold adjacent at h
  split_ifs at h with h1 h2 h3 h4
  · simp at h; subst h; subst h1; decide
  · simp at h
    rcases h with h | h <;> subst h <;> subst h2 <;> decide
  · simp at h
    rcases h with h | h <;> subst h <;> subst h3 <;> decide
  · simp at h; subst h; subst h4; decide
  · simp at h

theorem adjacent_irrefl (a : String) : a ∉ adjacent a := by
  unfold adjacent
  split_ifs with h1 h2 h3 h4 <;> simp_all <;> decide

theorem adjacent_nodup (a : String) : (adjacent a).Nodup := by
  unfold adjacent
  split_ifs <;> decide

theorem adjacent_len_le (a : String) : (adjacent a).length ≤ 2 := by
  unfold adjacent
  split_ifs <;> decide

theorem conflictBetween_symm (r1 r2 : Duty) (h : conflictBetween r1 r2) :
    conflictBetween r2 r1 := by
  obtain ⟨hd, hs⟩ := h
  refine ⟨hd.symm, ?_⟩
  rcases hs with h | h | h
  · exact Or.inl h.symm
  · exact Or.inr (Or.inr h)
  · exact Or.inr (Or.inl h)

theorem eligCheck_eq_true (slots icB : List (String × Session))
    (snoIc : List (String × String)) (sb : List (Session × List BlockRec))
    (date slot sNo norm : String) :
    eligCheck slots icB snoIc sb date slot sNo norm = true ↔
      ((norm, (date, slot)) ∉ slots ∧ (norm, (date, slot)) ∉ icB ∧
       (∀ adj ∈ adjacent slot, (norm, (date, adj)) ∉ slots) ∧
       ¬(icMatch ((aLookup snoIc sNo).getD "") norm = true ∧
         roomCount sb (date, slot) sNo > 2)) := by
  unfold eligCheck
  split_ifs with h1 h2 h3 h4 <;>
    simp_all [List.any_eq_true, Bool.and_eq_true, decide_eq_true_iff]
  constructor
  · rintro (h | h) hm
    · rw [hm] at h; simp at h
    · exact h
  · intro h
    cases hic : icMatch ((aLookup snoIc sNo).getD "") norm
    · left; rfl
    · right; exact h hic

theorem mem_addBlocked (bl : List (String × Session)) (icn date slot : String)
    (p : String × Session) :
    p ∈ addBlocked bl icn date slot ↔
      p ∈ bl ∨ p = (icn, (date, slot)) ∨ ∃ a ∈ adjacent slot, p = (icn, (date, a)) := by
  unfold addBlocked
  suffices h : ∀ (l : List String) (b0 : List (String × Session)),
      p ∈ l.foldl (fun b adj => insertPair (icn, (date, adj)) b) b0 ↔
        p ∈ b0 ∨ ∃ a ∈ l, p = (icn, (date, a)) by
    rw [h, mem_insertPair]
    tauto
  intro l
  induction l with
  | nil => intro b0; simp
  | cons a t ih =>
    intro b0
    rw [List.foldl_cons, ih, mem_insertPair]
    constructor
    · rintro ((h | h) | ⟨x, hx, h⟩)
      · exact Or.inr ⟨a, List.mem_cons_self _ _, h⟩
      · exact Or.inl h
      · exact Or.inr ⟨x, List.mem_cons_of_mem _ hx, h⟩
    · rintro (h | ⟨x, hx, h⟩)
      · exact Or.inl (Or.inr h)
      · rcases List.mem_cons.mp hx with hx | hx
        · exact Or.inl (Or.inl (hx ▸ h))
        · exact Or.inr ⟨x, hx, h⟩

theorem mem_icBlocked (nf : String → String) (ci : List CourseInfo)
    (p : String × Session) :
    p ∈ (build_ic_block_map nf ci).2 ↔
      ∃ e ∈ ci, e.icRaw ≠ "" ∧ e.date ≠ "" ∧ e.slot ≠ "" ∧
        (p = (nf e.icRaw, (e.date, e.slot)) ∨
         ∃ a ∈ adjacent e.slot, p = (nf e.icRaw, (e.date, a))) := by
  unfold build_ic_block_map
  suffices h : ∀ (l : List CourseInfo)
      (st : List (String × String) × List (String × Session)),
      p ∈ (l.foldl (icStep nf) st).2 ↔
        p ∈ st.2 ∨ ∃ e ∈ l, e.icRaw ≠ "" ∧ e.date ≠ "" ∧ e.slot ≠ "" ∧
          (p = (nf e.icRaw, (e.date, e.slot)) ∨
           ∃ a ∈ adjacent e.slot, p = (nf e.icRaw, (e.date, a))) by
    rw [h]
    simp
  intro l
  induction l with
  | nil => intro st; simp
  | cons e t ih =>
    intro st
    rw [List.foldl_cons, ih]
    have hstep : p ∈ (icStep nf st e).2 ↔
        p ∈ st.2 ∨ (e.icRaw ≠ "" ∧ e.date ≠ "" ∧ e.slot ≠ "" ∧
          (p = (nf e.icRaw, (e.date, e.slot)) ∨
           ∃ a ∈ adjacent e.slot, p = (nf e.icRaw, (e.date, a)))) := by
      unfold icStep
      split_ifs with h1 h2
      · simp [h1]
      · rw [mem_addBlocked]
        obtain ⟨hd, hs⟩ := h2
        constructor
        · rintro (h | h | h)
          · exact Or.inl h
          · exact Or.inr ⟨h1, hd, hs, Or.inl h⟩
          · exact Or.inr ⟨h1, hd, hs, Or.inr h⟩
        · rintro (h | ⟨_, _, _, (h | h)⟩)
          · exact Or.inl h
          · exact Or.inr (Or.inl h)
          · exact Or.inr (Or.inr h)
      · rw [Decidable.not_and_iff_or_not] at h2
        constructor
        · intro h
          exact Or.inl h
        · rintro (h | ⟨_, hd, hs, _⟩)
          · exact h
          · exact absurd (by constructor <;> assumption : e.date ≠ "" ∧ e.slot ≠ "")
              (by tauto)
    rw [hstep]
    constructor
    · rintro (h | ⟨x, hx, hc⟩)
      · rcases h with h | h
        · exact Or.inl h
        · exact Or.inr ⟨e, List.mem_cons_self _ _, h⟩
      · exact Or.inr ⟨x, List.mem_cons_of_mem _ hx, hc⟩
    · rintro (h | ⟨x, hx, hc⟩)
      · exact Or.inl (Or.inl h)
      · rcases List.mem_cons.mp hx with hx | hx
        · exact Or.inl (Or.inr (hx ▸ hc))
        · exact Or.inr ⟨x, hx, hc⟩

/-! ### Claim theorems about the duty allocator: coordinator rule -/

/-- C2 (counterexample): course c1 occupies a single room in its session
and its coordinator pat is the only roster member, yet pat is *not*
eligible for c1's block — the `ic_blocked_slots` check excludes an
exact-match coordinator from the course's whole session regardless of
the room count — and the block stays unassigned, contradicting "when the
course occupies at most 2 rooms the coordinator remains eligible and may
be assigned when no non-coordinator candidate exists". -/
theorem c2_counterexample :
    roomCount sbA ("d1", "Slot-1") "c1" = 1 ∧
    icMatch ((aLookup ctxA.snoIc "c1").getD "") "pat" = true ∧
    eligibleFor ctxA [] "d1" "Slot-1" "c1" = [] ∧
    (allocate_strict ctxA).invig =
      [⟨"d1", "Slot-1", "c1", "R1", "A", "", "unassigned-strict"⟩] := by
  decide

/-- C2 amended: for a block of course c, a faculty matching c's
coordinator (by the equality-or-substring rule) is excluded by the
*room-count* rule iff c occupies more than 2 rooms in the session
(first conjunct, which also lists the remaining eligibility conditions);
independently, `ic_blocked_slots` contains exactly the pairs
(nf icRaw, sess) for a course with nonempty coordinator/date/slot and
sess its own session or a same-date adjacent slot (second conjunct), and
membership there makes the faculty ineligible for *every* block of that
session, whatever that block's course or room count (third conjunct) —
so an exact-name coordinator is never eligible, hence never chosen, in
the course's own or adjacent sessions even when the course occupies at
most 2 rooms. -/
theorem c2_coordinator_exclusion (nf : String → String) (order : List String)
    (ntd : List (String × String)) (sb : List (Session × List BlockRec))
    (ci : List CourseInfo) :
    (∀ (slots : List (String × Session)) (date slot sNo norm : String),
      icMatch ((aLookup (mkCtx nf order ntd sb ci).snoIc sNo).getD "") norm = true →
      (norm ∈ eligibleFor (mkCtx nf order ntd sb ci) slots date slot sNo ↔
        (norm ∈ order ∧ (norm, (date, slot)) ∉ slots ∧
         (norm, (date, slot)) ∉ (mkCtx nf order ntd sb ci).icBlocked ∧
         (∀ adj ∈ adjacent slot, (norm, (date, adj)) ∉ slots) ∧
         roomCount sb (date, slot) sNo ≤ 2))) ∧
    (∀ (norm : String) (d s : String),
      (norm, (d, s)) ∈ (mkCtx nf order ntd sb ci).icBlocked ↔
        ∃ e ∈ ci, e.icRaw ≠ "" ∧ e.date ≠ "" ∧ e.slot ≠ "" ∧ norm = nf e.icRaw ∧
          e.date = d ∧ (e.slot = s ∨ s ∈ adjacent e.slot)) ∧
    (∀ (slots : List (String × Session)) (date slot sNo norm : String),
      (norm, (date, slot)) ∈ (mkCtx nf order ntd sb ci).icBlocked →
      norm ∉ eligibleFor (mkCtx nf order ntd sb ci) slots date slot sNo) := by
  refine ⟨?_, ?_, ?_⟩
  · intro slots date slot sNo norm hm
    unfold eligibleFor
    rw [List.mem_filter, eligCheck_eq_true]
    unfold mkCtx at hm ⊢
    dsimp only at hm ⊢
    constructor
    · rintro ⟨ho, h1, h2, h3, h4⟩
      refine ⟨ho, h1, h2, h3, ?_⟩
      rw [Decidable.not_and_iff_or_not] at h4
      rcases h4 with h4 | h4
      · exact absurd hm h4
      · omega
    · rintro ⟨ho, h1, h2, h3, h4⟩
      refine ⟨ho, h1, h2, h3, ?_⟩
      rintro ⟨_, hcount⟩
      omega
  · intro norm d s
    unfold mkCtx
    simp only
    rw [mem_icBlocked]
    constructor
    · rintro ⟨e, he, hr, hd, hs, hp⟩
      rcases hp with hp | ⟨a, ha, hp⟩
      · rw [Prod.mk.injEq, Prod.mk.injEq] at hp
        exact ⟨e, he, hr, hd, hs, hp.1, hp.2.1.symm, Or.inl hp.2.2.symm⟩
      · rw [Prod.mk.injEq, Prod.mk.injEq] at hp
        exact ⟨e, he, hr, hd, hs, hp.1, hp.2.1.symm, Or.inr (hp.2.2 ▸ ha)⟩
    · rintro ⟨e, he, hr, hd, hs, hn, hdd, hss⟩
      refine ⟨e, he, hr, hd, hs, ?_⟩
      rcases hss with hss | hss
      · exact Or.inl (by rw [hn, hdd, hss])
      · exact Or.inr ⟨s, hss, by rw [hn, hdd]⟩
  · intro slots date slot sNo norm hb hmem
    unfold eligibleFor at hmem
    rw [List.mem_filter, eligCheck_eq_true] at hmem
    exact hmem.2.2.1 hb

/-- C2 witness: the amended characterization applied in the one-hop
scenario, where "patel kumar" substring-matches coordinator "patel" of
course c9 (3 rooms) and is indeed not eligible, and in the
coordinator-exclusion scenario, where exact-match coordinator "pat" is
blocked for c1's session and therefore ineligible even for a block of a
different course "c7" in that session. -/
theorem c2_witness :
    (icMatch ((aLookup (mkCtx id ordB ntdB sbB ciB).snoIc "c9").getD "")
        "patel kumar" = true ∧
    ("patel kumar" ∈ eligibleFor (mkCtx id ordB ntdB sbB ciB) [] "d1" "Slot-2" "c9" ↔
      ("patel kumar" ∈ ordB ∧ ("patel kumar", ("d1", "Slot-2")) ∉ ([] : List (String × Session)) ∧
       ("patel kumar", ("d1", "Slot-2")) ∉ (mkCtx id ordB ntdB sbB ciB).icBlocked ∧
       (∀ adj ∈ adjacent "Slot-2", ("patel kumar", ("d1", adj)) ∉ ([] : List (String × Session))) ∧
       roomCount sbB ("d1", "Slot-2") "c9" ≤ 2))) ∧
    (("pat", ("d1", "Slot-1")) ∈ (mkCtx id ["pat"] ntdA sbA ciA).icBlocked ∧
     "pat" ∉ eligibleFor (mkCtx id ["pat"] ntdA sbA ciA) [] "d1" "Slot-1" "c7") := by
  refine ⟨⟨by decide, ?_⟩, by decide, ?_⟩
  · exact (c2_coordinator_exclusion id ordB ntdB sbB ciB).1 [] "d1" "Slot-2" "c9"
      "patel kumar" (by decide)
  · exact (c2_coordinator_exclusion id ["pat"] ntdA sbA ciA).2.2 [] "d1" "Slot-1"
      "c7" "pat" (by decide)

theorem loadKeyLe_total (load : String → Nat) (a b : String) :
    loadKeyLe load a b = true ∨ loadKeyLe load b a = true := by
  unfold loadKeyLe
  rcases Nat.lt_trichotomy (load a) (load b) with h | h | h
  · left; simp [h]
  · rcases strLe_total a b with h2 | h2
    · left; simp [h, h2]
    · right; simp [h, h2]
  · right; simp [h]

theorem loadKeyLe_trans (load : String → Nat) (a b c : String)
    (hab : loadKeyLe load a b = true) (hbc : loadKeyLe load b c = true) :
    loadKeyLe load a c = true := by
  unfold loadKeyLe at hab hbc ⊢
  simp only [Bool.or_eq_true, Bool.and_eq_true, decide_eq_true_iff] at hab hbc ⊢
  rcases hab with hab | ⟨hab, hab2⟩
  · rcases hbc with hbc | ⟨hbc, _⟩
    · left; omega
    · left; omega
  · rcases hbc with hbc | ⟨hbc, hbc2⟩
    · left; omega
    · right; exact ⟨by omega, strLe_trans a b c hab2 hbc2⟩

theorem loadKeyLe_iff (load : String → Nat) (a b : String) :
    loadKeyLe load a b = true ↔
      (load a < load b ∨ (load a = load b ∧ strLe a b = true)) := by
  unfold loadKeyLe
  simp [Bool.or_eq_true, Bool.and_eq_true, decide_eq_true_iff]

/-- C7: candidate selection in `allocate_strict`.  Whenever a block has
a chosen faculty, it comes from the non-coordinator subset of the
eligible candidates when that subset is nonempty (the coordinator set is
used only as last resort), and within the chosen subset it minimizes
`(load, identity)` in the lexicographic order (load ascending, ties by
identity ascending in code-point order). -/
theorem c7_candidate_selection (load : String → Nat) (eligible : List String)
    (icn c : String) (h : pickChosen load eligible icn = some c) :
    c ∈ eligible ∧
    (icMatch icn c = true → eligible.filter (fun n => !(icMatch icn n)) = []) ∧
    (eligible.filter (fun n => !(icMatch icn n)) ≠ [] →
      c ∈ eligible.filter (fun n => !(icMatch icn n)) ∧
      ∀ y ∈ eligible.filter (fun n => !(icMatch icn n)),
        load c < load y ∨ (load c = load y ∧ strLe c y = true)) ∧
    (eligible.filter (fun n => !(icMatch icn n)) = [] →
      c ∈ eligible.filter (fun n => icMatch icn n) ∧
      ∀ y ∈ eligible.filter (fun n => icMatch icn n),
        load c < load y ∨ (load c = load y ∧ strLe c y = true)) := by
  unfold pickChosen at h
  dsimp only at h
  by_cases hni : (eligible.filter (fun n => !(icMatch icn n))).isEmpty
  · rw [if_pos hni] at h
    have hmin := pySortBy_head_min (loadKeyLe load) (loadKeyLe_total load)
      (loadKeyLe_trans load) _ c h
    obtain ⟨hmem, hall⟩ := hmin
    have hempty : eligible.filter (fun n => !(icMatch icn n)) = [] :=
      List.isEmpty_iff.mp hni
    refine ⟨(List.mem_filter.mp hmem).1, fun _ => hempty, fun hne => absurd hempty hne,
      fun _ => ⟨hmem, ?_⟩⟩
    intro y hy
    exact (loadKeyLe_iff load c y).mp (hall y hy)
  · rw [if_neg hni] at h
    have hmin := pySortBy_head_min (loadKeyLe load) (loadKeyLe_total load)
      (loadKeyLe_trans load) _ c h
    obtain ⟨hmem, hall⟩ := hmin
    have hne : eligible.filter (fun n => !(icMatch icn n)) ≠ [] := by
      intro he
      rw [he] at hni
      simp at hni
    have hcm : icMatch icn c = false := by
      have := (List.mem_filter.mp hmem).2
      simpa using this
    refine ⟨(List.mem_filter.mp hmem).1, ?_, fun _ => ⟨hmem, ?_⟩, fun he => absurd he hne⟩
    · intro hcm2
      rw [hcm2] at hcm
      simp at hcm
    · intro y hy
      exact (loadKeyLe_iff load c y).mp (hall y hy)

/-- C7 witness: the selection theorem applied to a concrete pick with
two non-coordinator candidates of equal load. -/
theorem c7_witness :
    pickChosen (fun _ => 0) ["dan", "cam"] "patel" = some "cam" ∧
    "cam" ∈ (["dan", "cam"] : List String) := by
  have h : pickChosen (fun _ => 0) ["dan", "cam"] "patel" = some "cam" := by decide
  exact ⟨h, (c7_candidate_selection (fun _ => 0) ["dan", "cam"] "patel" "cam" h).1⟩

theorem foldl_preserve (P : σ → Prop) (f : σ → β → σ)
    (hf : ∀ s b, P s → P (f s b)) :
    ∀ (l : List β) (s0 : σ), P s0 → P (l.foldl f s0) := by
  intro l
  induction l with
  | nil => intro s0 h; exact h
  | cons b t ih =>
    intro s0 h
    exact ih _ (hf s0 b h)

theorem allocBlock_notes (ctx : DCtx) (date slot : String) (st : DState)
    (b : BlockRec) (h : ∀ r ∈ st.invig, noteOK r.note) :
    ∀ r ∈ (allocBlock ctx date slot st b).invig, noteOK r.note := by
  intro r hr
  unfold allocBlock at hr
  dsimp only at hr
  split_ifs at hr with h1
  · rcases List.mem_append.mp hr with h2 | h2
    · exact h r h2
    · simp only [List.mem_singleton] at h2
      subst h2
      right; left; rfl
  · cases hp : pickChosen st.load
        (eligibleFor ctx st.slots date slot b.sNo)
        ((aLookup ctx.snoIc b.sNo).getD "") with
    | none =>
      rw [hp] at hr
      rcases List.mem_append.mp hr with h2 | h2
      · exact h r h2
      · simp only [List.mem_singleton] at h2
        subst h2
        right; right; left; rfl
    | some c =>
      rw [hp] at hr
      dsimp only at hr
      split_ifs at hr with h2
      · rcases List.mem_append.mp hr with h3 | h3
        · exact h r h3
        · simp only [List.mem_singleton] at h3
          subst h3
          right; right; left; rfl
      · rcases List.mem_append.mp hr with h3 | h3
        · exact h r h3
        · simp only [List.mem_singleton] at h3
          subst h3
          left; rfl

theorem allocate_strict_notes (ctx : DCtx) :
    ∀ r ∈ (allocate_strict ctx).invig, noteOK r.note := by
  unfold allocate_strict
  refine foldl_preserve (fun st => ∀ r ∈ st.invig, noteOK r.note) _
    (fun (st : DState) (sess : Session) hst =>
      foldl_preserve (fun st2 => ∀ r ∈ st2.invig, noteOK r.note) _
        (fun st2 b hst2 => allocBlock_notes ctx sess.1 sess.2 st2 b hst2)
        _ st hst)
    _ _ ?_
  intro r hr
  exact absurd hr (List.not_mem_nil r)

theorem repairStep_notes (rev : Bool) (ctx : DCtx) (st : DState) (idx : Nat)
    (h : ∀ r ∈ st.invig, noteOK r.note) :
    ∀ r ∈ (repairStep rev ctx st idx).invig, noteOK r.note := by
  unfold repairStep
  cases hg : st.invig.get? idx with
  | none => exact h
  | some r0 =>
    dsimp only
    split_ifs with h1
    · exact h
    · cases hc : findCommit rev ctx st r0 with
      | none => exact h
      | some c =>
        obtain ⟨cand, adjSlot, j, tgt, alt⟩ := c
        unfold applyCommit
        intro r hr
        dsimp only at hr
        rcases List.mem_or_eq_of_mem_set hr with hr2 | hr2
        · rcases List.mem_or_eq_of_mem_set hr2 with hr3 | hr3
          · exact h r hr3
          · subst hr3
            right; right; right; left; rfl
        · subst hr2
          right; right; right; right
          exact ⟨alt, rfl⟩

/-- C8 amended: every row of the duty table produced by
`allocate_strict` followed by `attempt_one_hop_shifts` carries a note
from the set \x7b"", "no-students", "unassigned-strict", "shifted-by-algo",
"assigned-by-shift-from-&lt;alt&gt;"\x7d; assigned-direct rows carry the empty
note and blocks the repair pass could not resolve keep
"unassigned-strict" (no "unassigned-final" marker exists). -/
theorem c8_note_vocabulary (rev : Bool) (nf : String → String)
    (order : List String) (ntd : List (String × String))
    (sb : List (Session × List BlockRec)) (ci : List CourseInfo) :
    ∀ r ∈ (dutyPipeline rev nf order ntd sb ci).invig, noteOK r.note := by
  unfold dutyPipeline attempt_one_hop_shifts
  dsimp only
  exact foldl_preserve (fun st => ∀ r ∈ st.invig, noteOK r.note) _
    (fun st idx hst => repairStep_notes rev _ st idx hst)
    _ _ (allocate_strict_notes _)

/-- C8 witness: the vocabulary theorem applied to the shifted row of the
one-hop scenario. -/
theorem c8_witness :
    (⟨"d1", "Slot-1", "c1", "R1", "A", "Patel Kumar", "shifted-by-algo"⟩ : Duty) ∈
      (dutyPipeline false id ordB ntdB sbB ciB).invig ∧
    noteOK "shifted-by-algo" := by
  have hm : (⟨"d1", "Slot-1", "c1", "R1", "A", "Patel Kumar", "shifted-by-algo"⟩ : Duty) ∈
      (dutyPipeline false id ordB ntdB sbB ciB).invig := by decide
  exact ⟨hm, c8_note_vocabulary false id ordB ntdB sbB ciB _ hm⟩

/-- C8 (counterexample): with a one-person roster and two blocks in the
same session, the pipeline's notes are "" (assigned directly) and
"unassigned-strict" (unresolved), neither of which belongs to the
vocabulary claimed by the spec. -/
theorem c8_counterexample :
    ((dutyPipeline false id ["solo"] ntdC sbC []).invig.map (fun r => r.note)) =
      ["", "unassigned-strict"] ∧
    ("" : String) ∉ ["assigned-direct", "assigned-by-shift", "shifted-by-repair",
      "unassigned", "unassigned-final", "no-students"] ∧
    ("unassigned-strict" : String) ∉ ["assigned-direct", "assigned-by-shift",
      "shifted-by-repair", "unassigned", "unassigned-final", "no-students"] := by
  decide

theorem aLookup_eq_some_mem [DecidableEq κ] (l : List (κ × α)) (k : κ) (v : α)
    (h : aLookup l k = some v) : (k, v) ∈ l := by
  induction l with
  | nil => simp [aLookup] at h
  | cons p t ih =>
    obtain ⟨pk, pv⟩ := p
    simp only [aLookup] at h
    split_ifs at h with hk
    · subst hk
      simp only [Option.some_inj] at h
      subst h
      exact List.mem_cons_self _ _
    · exact List.mem_cons_of_mem _ (ih h)

theorem firstSome_some {f : α → Option β} {l : List α} {y : β}
    (h : firstSome f l = some y) : ∃ x ∈ l, f x = some y := by
  induction l with
  | nil => simp [firstSome] at h
  | cons a t ih =>
    rw [firstSome] at h
    cases hf : f a with
    | some z =>
      rw [hf] at h
      exact ⟨a, List.mem_cons_self a t, by rw [hf]; exact h⟩
    | none =>
      rw [hf] at h
      obtain ⟨x, hx, hfx⟩ := ih h
      exact ⟨x, List.mem_cons_of_mem a hx, hfx⟩

theorem mem_adjIter (rev : Bool) (s a : String) :
    a ∈ adjIter rev s ↔ a ∈ adjacent s := by
  unfold adjIter
  split_ifs <;> simp

theorem mem_possibleCands {ctx : DCtx} {st : DState} {r : Duty} {cand : String}
    (h : cand ∈ possibleCands ctx st r) :
    cand ∈ ctx.norm_order ∧
    (cand, (r.date, r.slot)) ∉ st.slots ∧
    (cand, (r.date, r.slot)) ∉ ctx.icBlocked ∧
    ∃ adj ∈ adjacent r.slot, (cand, (r.date, adj)) ∈ st.slots := by
  unfold possibleCands at h
  rw [List.mem_filter] at h
  obtain ⟨h1, h2⟩ := h
  simp only [Bool.and_eq_true, Bool.not_eq_true', decide_eq_false_iff_not,
    List.any_eq_true, decide_eq_true_eq] at h2
  exact ⟨h1, h2.1.1.1, h2.1.1.2, h2.2⟩

theorem mem_blockingAdjs {rev : Bool} {st : DState} {date slot cand adj : String}
    (h : adj ∈ blockingAdjs rev st date slot cand) :
    adj ∈ adjacent slot ∧ (cand, (date, adj)) ∈ st.slots := by
  unfold blockingAdjs at h
  rw [List.mem_filter] at h
  exact ⟨(mem_adjIter rev slot adj).mp h.1, by simpa using h.2⟩

theorem tryAdj_spec {ctx : DCtx} {st : DState} {r : Duty} {cand adjSlot : String}
    {j : Nat} {tgt : Duty} {alt : String}
    (h : tryAdj ctx st r cand adjSlot = some (cand, adjSlot, j, tgt, alt)) :
    (∃ hj : j < st.invig.length, st.invig.get ⟨j, hj⟩ = tgt) ∧
    tgt.date = r.date ∧ tgt.slot = adjSlot ∧ tgt.fac ≠ "" ∧
    resolveNorm ctx.ntd ctx.nf tgt.fac = cand ∧
    alt ∈ ctx.norm_order ∧ alt ≠ cand ∧
    (alt, (r.date, adjSlot)) ∉ st.slots ∧
    hasAdjConflict (insertPair (r.date, adjSlot) (slotsOf st.slots alt)) = false ∧
    hasAdjConflict (insertPair (r.date, r.slot)
      (eraseSess (r.date, adjSlot) (slotsOf st.slots cand))) = false := by
  unfold tryAdj at h
  cases ht : findTargetIdx ctx st.invig r.date adjSlot cand with
  | none => rw [ht] at h; exact absurd h (by simp)
  | some p =>
    obtain ⟨j0, tgt0⟩ := p
    rw [ht] at h
    dsimp only at h
    cases ha : findAlt ctx st r.date r.slot adjSlot cand tgt0.sNo with
    | none => rw [ha] at h; exact absurd h (by simp)
    | some alt0 =>
      rw [ha] at h
      simp only [Option.some_inj, Prod.mk.injEq] at h
      obtain ⟨-, -, hj0, htgt0, halt0⟩ := h
      subst hj0; subst htgt0; subst halt0
      unfold findTargetIdx at ht
      have htp := List.find?_some ht
      have htm := List.mem_of_find?_eq_some ht
      rw [mem_enumF] at htm
      obtain ⟨j2, hj2, hje⟩ := htm
      simp only [Nat.zero_add, Prod.mk.injEq] at hje
      obtain ⟨hj2e, htgt2⟩ := hje
      subst hj2e
      simp only [Bool.and_eq_true, decide_eq_true_eq, ne_eq] at htp
      have hap := List.find?_some ha
      have ham := List.mem_of_find?_eq_some ha
      simp only [Bool.and_eq_true, Bool.not_eq_true', decide_eq_false_iff_not,
        Bool.not_eq_eq_eq_not, Bool.not_true] at hap
      refine ⟨⟨hj2, htgt2.symm⟩, htp.1.1.1, htp.1.1.2, htp.1.2, htp.2, ham,
        hap.1.1.1.1.1, hap.1.1.2, hap.1.2, hap.2⟩

theorem findCommit_spec {rev : Bool} {ctx : DCtx} {st : DState} {r : Duty}
    {cand adjSlot : String} {j : Nat} {tgt : Duty} {alt : String}
    (h : findCommit rev ctx st r = some (cand, adjSlot, j, tgt, alt)) :
    cand ∈ ctx.norm_order ∧
    (cand, (r.date, r.slot)) ∉ st.slots ∧
    adjSlot ∈ adjacent r.slot ∧
    (cand, (r.date, adjSlot)) ∈ st.slots ∧
    (∃ hj : j < st.invig.length, st.invig.get ⟨j, hj⟩ = tgt) ∧
    tgt.date = r.date ∧ tgt.slot = adjSlot ∧ tgt.fac ≠ "" ∧
    resolveNorm ctx.ntd ctx.nf tgt.fac = cand ∧
    alt ∈ ctx.norm_order ∧ alt ≠ cand ∧
    (alt, (r.date, adjSlot)) ∉ st.slots ∧
    hasAdjConflict (insertPair (r.date, adjSlot) (slotsOf st.slots alt)) = false ∧
    hasAdjConflict (insertPair (r.date, r.slot)
      (eraseSess (r.date, adjSlot) (slotsOf st.slots cand))) = false := by
  unfold findCommit at h
  obtain ⟨cand2, hcand2, h2⟩ := firstSome_some h
  obtain ⟨adjSlot2, hadj2, h3⟩ := firstSome_some h2
  have hshape : cand2 = cand ∧ adjSlot2 = adjSlot := by
    unfold tryAdj at h3
    cases ht : findTargetIdx ctx st.invig r.date adjSlot2 cand2 with
    | none => rw [ht] at h3; exact absurd h3 (by simp)
    | some p =>
      obtain ⟨j0, tgt0⟩ := p
      rw [ht] at h3
      dsimp only at h3
      cases ha : findAlt ctx st r.date r.slot adjSlot2 cand2 tgt0.sNo with
      | none => rw [ha] at h3; exact absurd h3 (by simp)
      | some alt2 =>
        rw [ha] at h3
        simp only [Option.some_inj, Prod.mk.injEq] at h3
        exact ⟨h3.1, h3.2.1⟩
  obtain ⟨hce, hae⟩ := hshape
  subst hce; subst hae
  obtain ⟨hc1, hc2, hc3, -⟩ := mem_possibleCands hcand2
  obtain ⟨ha1, ha2⟩ := mem_blockingAdjs hadj2
  obtain ⟨hjt, ht1, ht2, ht3, ht4, ht5, ht6, ht7, ht8, ht9⟩ := tryAdj_spec h3
  exact ⟨hc1, hc2, ha1, ha2, hjt, ht1, ht2, ht3, ht4, ht5, ht6, ht7, ht8, ht9⟩

theorem resolveNorm_displayOf {ntd : List (String × String)} {order : List String}
    (hg : GoodNTD ntd order) (nf : String → String) {n : String} (hn : n ∈ order) :
    resolveNorm ntd nf (displayOf ntd n) = n ∧ displayOf ntd n ≠ "" := by
  obtain ⟨hinj, hne, hsome⟩ := hg
  have h1 := hsome n hn
  cases hd : aLookup ntd n with
  | none => rw [hd] at h1; simp at h1
  | some d =>
    have hmem : (n, d) ∈ ntd := aLookup_eq_some_mem ntd n d hd
    have hdisp : displayOf ntd n = d := by unfold displayOf; rw [hd]; rfl
    refine ⟨?_, by rw [hdisp]; exact hne (n, d) hmem⟩
    unfold resolveNorm
    cases hf : ntd.find? (fun p => decide (p.2 = displayOf ntd n)) with
    | none =>
      rw [List.find?_eq_none] at hf
      have := hf (n, d) hmem
      rw [hdisp] at this
      simp at this
    | some p =>
      have hp2 : p.2 = displayOf ntd n := by simpa using List.find?_some hf
      have hpmem := List.mem_of_find?_eq_some hf
      exact hinj p hpmem (n, d) hmem (by rw [hp2, hdisp])

theorem countP_set (p : α → Bool) (l : List α) (j : Nat) (v : α)
    (hj : j < l.length) :
    (l.set j v).countP p + (if p (l.get ⟨j, hj⟩) then 1 else 0) =
      l.countP p + (if p v then 1 else 0) := by
  induction l generalizing j with
  | nil => simp at hj
  | cons a t ih =>
    cases j with
    | zero =>
      simp only [List.set_cons_zero, List.countP_cons, List.get]
      split_ifs <;> omega
    | succ j2 =>
      simp only [List.set_cons_succ, List.countP_cons, List.get]
      have hj2 : j2 < t.length := by simpa using hj
      have := ih j2 hj2
      split_ifs at this ⊢ <;> omega

/-- C10: the repair pass never writes `faculty_load`, and every committed
shift mutates exactly two duty rows — the unassigned row `idx` (which
receives the candidate) and the target row `j` of the adjacent session
(which receives the alternate) — leaving every other row untouched and
increasing the alternate faculty's number of committed duty rows by
exactly one while their load stays at its pre-repair value. -/
theorem c10_repair_frame (rev : Bool) (ctx : DCtx) (st : DState)
    (hg : GoodNTD ctx.ntd ctx.norm_order) :
    (attempt_one_hop_shifts rev ctx st).load = st.load ∧
    ∀ idx r cand adjSlot j tgt alt,
      st.invig.get? idx = some r → r.fac = "" →
      findCommit rev ctx st r = some (cand, adjSlot, j, tgt, alt) →
      idx ≠ j ∧
      (repairStep rev ctx st idx).load = st.load ∧
      (∀ k, k ≠ idx → k ≠ j →
        (repairStep rev ctx st idx).invig.get? k = st.invig.get? k) ∧
      (repairStep rev ctx st idx).invig.get? idx =
        some { r with fac := displayOf ctx.ntd cand,
                      note := "assigned-by-shift-from-" ++ alt } ∧
      (repairStep rev ctx st idx).invig.get? j =
        some { tgt with fac := displayOf ctx.ntd alt,
                        note := "shifted-by-algo" } ∧
      (repairStep rev ctx st idx).invig.countP
          (fun x => decide (x.fac = displayOf ctx.ntd alt)) =
        st.invig.countP (fun x => decide (x.fac = displayOf ctx.ntd alt)) + 1 := by
  constructor
  · unfold attempt_one_hop_shifts
    refine foldl_preserve (fun (s : DState) => s.load = st.load) _ ?_ _ _ rfl
    intro s idx hs
    unfold repairStep
    cases hq : s.invig.get? idx with
    | none => exact hs
    | some r =>
      dsimp only
      split_ifs
      · exact hs
      · cases hc : findCommit rev ctx s r with
        | none => exact hs
        | some c =>
          obtain ⟨cand, adjSlot, j, tgt, alt⟩ := c
          unfold applyCommit
          exact hs
  · intro idx r cand adjSlot j tgt alt hq hfac hfc
    obtain ⟨hc1, hc2, hc3, hc4, ⟨hj, hjget⟩, ht1, ht2, ht3, ht4, ha1, ha2,
      ha3, ha4, ha5⟩ := findCommit_spec hfc
    obtain ⟨hidx, hidxget⟩ := List.get?_eq_some.mp hq
    have hne : idx ≠ j := by
      intro he
      subst he
      rw [hidxget] at hjget
      rw [hjget] at hfac
      exact ht3 hfac
    have hstep : (repairStep rev ctx st idx) =
        { invig := (st.invig.set j
              { tgt with fac := displayOf ctx.ntd alt, note := "shifted-by-algo" }).set idx
            { r with fac := displayOf ctx.ntd cand,
                     note := "assigned-by-shift-from-" ++ alt },
          slots := insertPair (cand, (r.date, r.slot))
            (insertPair (alt, (r.date, adjSlot))
              (erasePair (cand, (r.date, adjSlot)) st.slots)),
          load := st.load } := by
      unfold repairStep
      rw [hq]
      dsimp only
      rw [if_neg (by simpa using hfac), hfc]
      unfold applyCommit
      rfl
    have hDalt := resolveNorm_displayOf hg ctx.nf ha1
    have hDcand := resolveNorm_displayOf hg ctx.nf hc1
    have hdne : displayOf ctx.ntd cand ≠ displayOf ctx.ntd alt := by
      intro he
      apply ha2
      rw [← hDalt.1, ← he, hDcand.1]
    have htne : tgt.fac ≠ displayOf ctx.ntd alt := by
      intro he
      apply ha2
      rw [← hDalt.1, ← he, ht4]
    have hrne : r.fac ≠ displayOf ctx.ntd alt := by
      rw [hfac]
      exact fun he => hDalt.2 he.symm
    refine ⟨hne, by rw [hstep], ?_, ?_, ?_, ?_⟩
    · intro k hk1 hk2
      rw [hstep]
      dsimp only
      rw [List.get?_eq_getElem?, List.get?_eq_getElem?,
        List.getElem?_set_ne (Ne.symm hk1), List.getElem?_set_ne (Ne.symm hk2)]
    · rw [hstep]
      dsimp only
      rw [List.get?_eq_getElem?, List.getElem?_set_self (by simpa using hidx)]
    · rw [hstep]
      dsimp only
      rw [List.get?_eq_getElem?, List.getElem?_set_ne hne,
        List.getElem?_set_self (by simpa using hj)]
    · rw [hstep]
      dsimp only
      have hkey1 := countP_set (fun x => decide (x.fac = displayOf ctx.ntd alt))
        st.invig j { tgt with fac := displayOf ctx.ntd alt, note := "shifted-by-algo" } hj
      have hkey2 := countP_set (fun x => decide (x.fac = displayOf ctx.ntd alt))
        (st.invig.set j { tgt with fac := displayOf ctx.ntd alt, note := "shifted-by-algo" })
        idx { r with fac := displayOf ctx.ntd cand,
                     note := "assigned-by-shift-from-" ++ alt }
        (by simpa using hidx)
      rw [hjget] at hkey1
      have hmid : ((st.invig.set j
          { tgt with fac := displayOf ctx.ntd alt, note := "shifted-by-algo" }).get
            ⟨idx, by simpa using hidx⟩) = r := by
        rw [← hidxget]
        simp only [List.get_eq_getElem]
        exact List.getElem_set_ne (Ne.symm hne) _
      rw [hmid] at hkey2
      dsimp only at hkey1 hkey2
      simp only [decide_eq_true_eq] at hkey1 hkey2
      simp only [if_true] at hkey1
      rw [if_neg htne] at hkey1
      rw [if_neg hrne, if_neg hdne] at hkey2
      omega

/-- C10 witness: the frame theorem at the one-hop scenario: the shift of
Bob's Slot-1 duty commits Patel Kumar into row 0 and Bob into row 3, the
load table is untouched, and Patel Kumar's committed rows go from none
to one. -/
theorem c10_witness :
    (attempt_one_hop_shifts false ctxB (allocate_strict ctxB)).load =
      (allocate_strict ctxB).load ∧
    (repairStep false ctxB (allocate_strict ctxB) 3).invig.get? 0 =
      some ⟨"d1", "Slot-1", "c1", "R1", "A", "Patel Kumar", "shifted-by-algo"⟩ ∧
    (repairStep false ctxB (allocate_strict ctxB) 3).invig.countP
        (fun x => decide (x.fac = "Patel Kumar")) =
      (allocate_strict ctxB).invig.countP
        (fun x => decide (x.fac = "Patel Kumar")) + 1 := by
  have hg : GoodNTD ctxB.ntd ctxB.norm_order := by
    unfold GoodNTD ctxB mkCtx
    refine ⟨by decide, by decide, by decide⟩
  have H := c10_repair_frame false ctxB (allocate_strict ctxB) hg
  have H2 := H.2 3 ⟨"d1", "Slot-2", "c9", "R3", "A", "", "unassigned-strict"⟩
    "bob" "Slot-1" 0 ⟨"d1", "Slot-1", "c1", "R1", "A", "Bob", ""⟩ "patel kumar"
    (by decide) rfl (by decide)
  have hD : displayOf ctxB.ntd "patel kumar" = "Patel Kumar" := by decide
  refine ⟨H.1, ?_, ?_⟩
  · have := H2.2.2.2.2.1
    rw [hD] at this
    exact this
  · have := H2.2.2.2.2.2
    rw [hD] at this
    exact this

theorem adjIter_false (s : String) : adjIter false s = adjacent s := rfl

theorem adjIter_true (s : String) : adjIter true s = (adjacent s).reverse := rfl

theorem blockingAdjs_true_eq (st : DState) (date slot cand : String) :
    blockingAdjs true st date slot cand =
      (blockingAdjs false st date slot cand).reverse := by
  unfold blockingAdjs
  rw [adjIter_true, adjIter_false, List.filter_reverse]

theorem hasAdjConflict_true_of (S : List Session) (p : Session) (a : String)
    (hp : p ∈ S) (ha : a ∈ adjacent p.2) (hmem : (p.1, a) ∈ S) :
    hasAdjConflict S = true := by
  unfold hasAdjConflict
  rw [List.any_eq_true]
  refine ⟨p, hp, ?_⟩
  rw [List.any_eq_true]
  exact ⟨a, ha, by simpa using hmem⟩

theorem tryAdj_none_of_both_blocked (ctx : DCtx) (st : DState) (r : Duty)
    (cand adjS adj2 : String) (hm2 : adj2 ∈ adjacent r.slot) (hne : adj2 ≠ adjS)
    (hblk2 : (cand, (r.date, adj2)) ∈ st.slots) :
    tryAdj ctx st r cand adjS = none := by
  unfold tryAdj
  cases ht : findTargetIdx ctx st.invig r.date adjS cand with
  | none => rfl
  | some p =>
    obtain ⟨j, tgt⟩ := p
    dsimp only
    have hX : hasAdjConflict (insertPair (r.date, r.slot)
        (eraseSess (r.date, adjS) (slotsOf st.slots cand))) = true := by
      apply hasAdjConflict_true_of _ (r.date, r.slot) adj2
      · rw [mem_insertPair]
        exact Or.inl rfl
      · exact hm2
      · rw [mem_insertPair]
        right
        rw [mem_eraseSess]
        refine ⟨(mem_slotsOf _ _ _).mpr hblk2, ?_⟩
        simp [hne]
    have hfa : findAlt ctx st r.date r.slot adjS cand tgt.sNo = none := by
      unfold findAlt
      rw [List.find?_eq_none]
      intro alt _
      simp [hX]
    rw [hfa]

theorem firstSome_eq_none {f : α → Option β} {l : List α}
    (h : ∀ x ∈ l, f x = none) : firstSome f l = none := by
  induction l with
  | nil => rfl
  | cons a t ih =>
    rw [firstSome, h a (List.mem_cons_self a t)]
    exact ih (fun x hx => h x (List.mem_cons_of_mem a hx))

theorem firstSome_blockingAdjs_rev (ctx : DCtx) (st : DState) (r : Duty)
    (cand : String) (rev : Bool) :
    firstSome (tryAdj ctx st r cand) (blockingAdjs rev st r.date r.slot cand) =
      firstSome (tryAdj ctx st r cand) (blockingAdjs false st r.date r.slot cand) := by
  cases rev with
  | false => rfl
  | true =>
    rw [blockingAdjs_true_eq]
    have hnd : (blockingAdjs false st r.date r.slot cand).Nodup :=
      (adjacent_nodup r.slot).filter _
    have hlen : (blockingAdjs false st r.date r.slot cand).length ≤ 2 :=
      le_trans (List.length_filter_le _ _) (adjacent_len_le r.slot)
    cases hl : blockingAdjs false st r.date r.slot cand with
    | nil => rfl
    | cons a t =>
      cases t with
      | nil => rfl
      | cons b t2 =>
        cases t2 with
        | cons x t3 =>
          rw [hl] at hlen
          simp at hlen
        | nil =>
          rw [hl] at hnd
          have hab : a ≠ b := by
            rw [List.nodup_cons] at hnd
            intro he
            exact hnd.1 (by rw [he]; exact List.mem_cons_self b _)
          have hma : a ∈ blockingAdjs false st r.date r.slot cand := by
            rw [hl]; exact List.mem_cons_self a _
          have hmb : b ∈ blockingAdjs false st r.date r.slot cand := by
            rw [hl]; exact List.mem_cons_of_mem a (List.mem_cons_self b _)
          obtain ⟨ha1, ha2⟩ := mem_blockingAdjs hma
          obtain ⟨hb1, hb2⟩ := mem_blockingAdjs hmb
          have hfa : tryAdj ctx st r cand a = none :=
            tryAdj_none_of_both_blocked ctx st r cand a b hb1 (Ne.symm hab) hb2
          have hfb : tryAdj ctx st r cand b = none :=
            tryAdj_none_of_both_blocked ctx st r cand b a ha1 hab ha2
          have h1 : firstSome (tryAdj ctx st r cand) [b, a] = none := by
            apply firstSome_eq_none
            intro x hx
            rcases List.mem_cons.mp hx with h | h
            · subst h; exact hfb
            · rcases List.mem_cons.mp h with h2 | h2
              · subst h2; exact hfa
              · exact absurd h2 (List.not_mem_nil x)
          have h2 : firstSome (tryAdj ctx st r cand) [a, b] = none := by
            apply firstSome_eq_none
            intro x hx
            rcases List.mem_cons.mp hx with h | h
            · subst h; exact hfa
            · rcases List.mem_cons.mp h with h2 | h2
              · subst h2; exact hfb
              · exact absurd h2 (List.not_mem_nil x)
          show firstSome (tryAdj ctx st r cand) [b, a] =
            firstSome (tryAdj ctx st r cand) [a, b]
          rw [h1, h2]

theorem findCommit_rev (rev : Bool) (ctx : DCtx) (st : DState) (r : Duty) :
    findCommit rev ctx st r = findCommit false ctx st r := by
  unfold findCommit
  congr 1
  funext cand
  exact firstSome_blockingAdjs_rev ctx st r cand rev

theorem repairStep_rev (rev : Bool) (ctx : DCtx) (st : DState) (idx : Nat) :
    repairStep rev ctx st idx = repairStep false ctx st idx := by
  unfold repairStep
  cases hq : st.invig.get? idx with
  | none => rfl
  | some r =>
    dsimp only
    rw [findCommit_rev]

theorem attempt_rev (rev : Bool) (ctx : DCtx) (st : DState) :
    attempt_one_hop_shifts rev ctx st = attempt_one_hop_shifts false ctx st := by
  unfold attempt_one_hop_shifts
  have hf : repairStep rev ctx = repairStep false ctx :=
    funext (fun s => funext (fun i => repairStep_rev rev ctx s i))
  rw [hf]

/-- C9: the engine is deterministic: over identical inputs with identical
orderings, the seat side is a pure function of its inputs and the duty
side is independent of the one source of ambient nondeterminism — the
iteration order of the `ADJACENT` set in the repair pass — so two runs
produce identical seat assignment lists and identical duty lists. -/
theorem c9_determinism (rev1 rev2 : Bool) (students : List SStudent)
    (rooms : List SRoom) (scheduleMap : List ((String × String) × List SCourse))
    (nf : String → String) (norm_order : List String)
    (ntd : List (String × String)) (sb : List (Session × List BlockRec))
    (courseInfo : List CourseInfo) :
    engineRun rev1 students rooms scheduleMap nf norm_order ntd sb courseInfo =
      engineRun rev2 students rooms scheduleMap nf norm_order ntd sb courseInfo := by
  unfold engineRun dutyPipeline
  dsimp only
  rw [attempt_rev rev1, attempt_rev rev2]

theorem pickChosen_mem {load : String → Nat} {eligible : List String}
    {icn c : String} (h : pickChosen load eligible icn = some c) :
    c ∈ eligible := by
  unfold pickChosen at h
  dsimp only at h
  have hm := List.mem_of_mem_head? (Option.mem_def.mpr h)
  rw [mem_pySortBy] at hm
  split_ifs at hm
  · exact (List.mem_filter.mp hm).1
  · exact (List.mem_filter.mp hm).1

theorem noConflicts_snoc_unassigned {ntd : List (String × String)}
    {nf : String → String} {rows : List Duty} {row : Duty}
    (hrow : row.fac = "") (hA : noConflicts ntd nf rows) :
    noConflicts ntd nf (rows ++ [row]) := by
  intro i hi i2 hi2 hne hf1 hf2 hres
  simp only [List.get_eq_getElem] at hf1 hf2 hres ⊢
  have hlen : (rows ++ [row]).length = rows.length + 1 := by simp
  by_cases h1 : i < rows.length
  · by_cases h2 : i2 < rows.length
    · rw [List.getElem_append_left h1] at hf1
      rw [List.getElem_append_left h2] at hf2
      rw [List.getElem_append_left h1, List.getElem_append_left h2] at hres
      rw [List.getElem_append_left h1, List.getElem_append_left h2]
      have := hA i h1 i2 h2 hne
      simp only [List.get_eq_getElem] at this
      exact this hf1 hf2 hres
    · have h2e : i2 = rows.length := by rw [hlen] at hi2; omega
      rw [List.getElem_concat_length _ _ _ h2e] at hf2
      exact absurd hrow hf2
  · have h1e : i = rows.length := by rw [hlen] at hi; omega
    rw [List.getElem_concat_length _ _ _ h1e] at hf1
    exact absurd hrow hf1

theorem rowsSound_snoc_unassigned {ntd : List (String × String)}
    {nf : String → String} {rows : List Duty} {row : Duty}
    {slots : List (String × Session)} (hrow : row.fac = "")
    (hB : rowsSound ntd nf rows slots) :
    rowsSound ntd nf (rows ++ [row]) slots := by
  intro i hi hf
  simp only [List.get_eq_getElem] at hf ⊢
  have hlen : (rows ++ [row]).length = rows.length + 1 := by simp
  by_cases h1 : i < rows.length
  · rw [List.getElem_append_left h1] at hf ⊢
    have := hB i h1
    simp only [List.get_eq_getElem] at this
    exact this hf
  · have h1e : i = rows.length := by rw [hlen] at hi; omega
    rw [List.getElem_concat_length _ _ _ h1e] at hf
    exact absurd hrow hf

theorem noConflicts_snoc_assigned {ntd : List (String × String)}
    {nf : String → String} {rows : List Duty} {slots : List (String × Session)}
    {row : Duty} {c : String}
    (hresn : resolveNorm ntd nf row.fac = c)
    (hsess : (c, (row.date, row.slot)) ∉ slots)
    (hadj : ∀ adj ∈ adjacent row.slot, (c, (row.date, adj)) ∉ slots)
    (hA : noConflicts ntd nf rows) (hB : rowsSound ntd nf rows slots) :
    noConflicts ntd nf (rows ++ [row]) := by
  have key : ∀ k (hk : k < rows.length), rows[k].fac ≠ "" →
      resolveNorm ntd nf rows[k].fac = c →
      ¬ conflictBetween rows[k] row := by
    intro k hk hf hres hconf
    obtain ⟨hd, hs⟩ := hconf
    have hmem := hB k hk
    simp only [List.get_eq_getElem] at hmem
    have hmem2 := hmem hf
    rw [hres] at hmem2
    rcases hs with h | h | h
    · exact hsess (by rw [← hd, ← h]; exact hmem2)
    · exact hadj _ (adjacent_symm _ _ h) (by rw [← hd]; exact hmem2)
    · exact hadj _ h (by rw [← hd]; exact hmem2)
  intro i hi i2 hi2 hne hf1 hf2 hres
  simp only [List.get_eq_getElem] at hf1 hf2 hres ⊢
  have hlen : (rows ++ [row]).length = rows.length + 1 := by simp
  by_cases h1 : i < rows.length
  · by_cases h2 : i2 < rows.length
    · rw [List.getElem_append_left h1] at hf1
      rw [List.getElem_append_left h2] at hf2
      rw [List.getElem_append_left h1, List.getElem_append_left h2] at hres
      rw [List.getElem_append_left h1, List.getElem_append_left h2]
      have := hA i h1 i2 h2 hne
      simp only [List.get_eq_getElem] at this
      exact this hf1 hf2 hres
    · have h2e : i2 = rows.length := by rw [hlen] at hi2; omega
      rw [List.getElem_concat_length _ _ _ h2e] at hf2 hres ⊢
      rw [List.getElem_append_left h1] at hf1 hres ⊢
      intro hconf
      exact key i h1 hf1 (by rw [hres]; exact hresn) hconf
  · have h1e : i = rows.length := by rw [hlen] at hi; omega
    by_cases h2 : i2 < rows.length
    · rw [List.getElem_concat_length _ _ _ h1e] at hf1 hres ⊢
      rw [List.getElem_append_left h2] at hf2 hres ⊢
      intro hconf
      exact key i2 h2 hf2 (by rw [← hres]; exact hresn)
        (conflictBetween_symm _ _ hconf)
    · have h2e : i2 = rows.length := by rw [hlen] at hi2; omega
      exact absurd (h1e.trans h2e.symm) hne

theorem rowsSound_snoc_assigned {ntd : List (String × String)}
    {nf : String → String} {rows : List Duty} {slots : List (String × Session)}
    {row : Duty} {c : String}
    (hresn : resolveNorm ntd nf row.fac = c)
    (hB : rowsSound ntd nf rows slots) :
    rowsSound ntd nf (rows ++ [row])
      (insertPair (c, (row.date, row.slot)) slots) := by
  intro i hi hf
  simp only [List.get_eq_getElem] at hf ⊢
  have hlen : (rows ++ [row]).length = rows.length + 1 := by simp
  by_cases h1 : i < rows.length
  · rw [List.getElem_append_left h1] at hf ⊢
    rw [mem_insertPair]
    right
    have := hB i h1
    simp only [List.get_eq_getElem] at this
    exact this hf
  · have h1e : i = rows.length := by rw [hlen] at hi; omega
    rw [List.getElem_concat_length _ _ _ h1e] at hf ⊢
    rw [mem_insertPair]
    left
    rw [hresn]

theorem allocBlock_inv (ctx : DCtx) (date slot : String) (st : DState)
    (b : BlockRec) (hg : GoodNTD ctx.ntd ctx.norm_order)
    (h : noConflicts ctx.ntd ctx.nf st.invig ∧
      rowsSound ctx.ntd ctx.nf st.invig st.slots) :
    noConflicts ctx.ntd ctx.nf (allocBlock ctx date slot st b).invig ∧
    rowsSound ctx.ntd ctx.nf (allocBlock ctx date slot st b).invig
      (allocBlock ctx date slot st b).slots := by
  obtain ⟨hA, hB⟩ := h
  unfold allocBlock
  dsimp only
  split_ifs with h1
  · exact ⟨noConflicts_snoc_unassigned rfl hA, rowsSound_snoc_unassigned rfl hB⟩
  · cases hp : pickChosen st.load (eligibleFor ctx st.slots date slot b.sNo)
        ((aLookup ctx.snoIc b.sNo).getD "") with
    | none =>
      exact ⟨noConflicts_snoc_unassigned rfl hA, rowsSound_snoc_unassigned rfl hB⟩
    | some c =>
      dsimp only
      split_ifs with h2
      · exact ⟨noConflicts_snoc_unassigned rfl hA, rowsSound_snoc_unassigned rfl hB⟩
      · have hcel := pickChosen_mem hp
        unfold eligibleFor at hcel
        have hcord := (List.mem_filter.mp hcel).1
        have hcheck := (List.mem_filter.mp hcel).2
        rw [eligCheck_eq_true] at hcheck
        obtain ⟨hs1, -, hs3, -⟩ := hcheck
        have hD := resolveNorm_displayOf hg ctx.nf hcord
        refine ⟨noConflicts_snoc_assigned hD.1 hs1 hs3 hA hB, ?_⟩
        exact rowsSound_snoc_assigned hD.1 hB

theorem allocate_strict_inv (ctx : DCtx) (hg : GoodNTD ctx.ntd ctx.norm_order) :
    noConflicts ctx.ntd ctx.nf (allocate_strict ctx).invig ∧
    rowsSound ctx.ntd ctx.nf (allocate_strict ctx).invig
      (allocate_strict ctx).slots := by
  unfold allocate_strict
  refine foldl_preserve (fun (st : DState) =>
      noConflicts ctx.ntd ctx.nf st.invig ∧
      rowsSound ctx.ntd ctx.nf st.invig st.slots) _
    (fun (st : DState) (sess : Session) hst =>
      foldl_preserve (fun (st2 : DState) =>
          noConflicts ctx.ntd ctx.nf st2.invig ∧
          rowsSound ctx.ntd ctx.nf st2.invig st2.slots) _
        (fun st2 b hst2 => allocBlock_inv ctx sess.1 sess.2 st2 b hg hst2)
        _ st hst)
    _ _ ?_
  constructor
  · intro i hi
    simp at hi
  · intro i hi
    simp at hi

theorem commit_inv {ntd : List (String × String)} {nf : String → String}
    {order : List String} (hg : GoodNTD ntd order)
    {rows : List Duty} {slots : List (String × Session)}
    (hA : noConflicts ntd nf rows) (hB : rowsSound ntd nf rows slots)
    {idx j : Nat} {r tgt : Duty} {cand adjSlot alt : String}
    (hidx : idx < rows.length) (hidxget : rows.get ⟨idx, hidx⟩ = r)
    (hj : j < rows.length) (hjget : rows.get ⟨j, hj⟩ = tgt)
    (hfac : r.fac = "")
    (hcand : cand ∈ order) (halt : alt ∈ order) (hca : alt ≠ cand)
    (hc2 : (cand, (r.date, r.slot)) ∉ slots)
    (ht1 : tgt.date = r.date) (ht2 : tgt.slot = adjSlot) (ht3 : tgt.fac ≠ "")
    (ht4 : resolveNorm ntd nf tgt.fac = cand)
    (ha3 : (alt, (r.date, adjSlot)) ∉ slots)
    (ha4 : hasAdjConflict (insertPair (r.date, adjSlot)
      (slotsOf slots alt)) = false)
    (ha5 : hasAdjConflict (insertPair (r.date, r.slot)
      (eraseSess (r.date, adjSlot) (slotsOf slots cand))) = false) :
    noConflicts ntd nf ((rows.set j
      { tgt with fac := displayOf ntd alt, note := "shifted-by-algo" }).set idx
      { r with fac := displayOf ntd cand,
               note := "assigned-by-shift-from-" ++ alt }) ∧
    rowsSound ntd nf ((rows.set j
      { tgt with fac := displayOf ntd alt, note := "shifted-by-algo" }).set idx
      { r with fac := displayOf ntd cand,
               note := "assigned-by-shift-from-" ++ alt })
      (insertPair (cand, (r.date, r.slot)) (insertPair (alt, (r.date, adjSlot))
        (erasePair (cand, (r.date, adjSlot)) slots))) := by
  have hDalt := resolveNorm_displayOf hg nf halt
  have hDcand := resolveNorm_displayOf hg nf hcand
  have hjget2 : rows[j] = tgt := by
    simpa only [List.get_eq_getElem] using hjget
  have hidxget2 : rows[idx] = r := by
    simpa only [List.get_eq_getElem] using hidxget
  have hA2 : ∀ i (hi : i < rows.length), ∀ i2 (hi2 : i2 < rows.length),
      i ≠ i2 → rows[i].fac ≠ "" → rows[i2].fac ≠ "" →
      resolveNorm ntd nf rows[i].fac = resolveNorm ntd nf rows[i2].fac →
      ¬ conflictBetween rows[i] rows[i2] := by
    intro i hi i2 hi2 hne hf1 hf2 hres
    have := hA i hi i2 hi2 hne
    simp only [List.get_eq_getElem] at this
    exact this hf1 hf2 hres
  have hB2 : ∀ i (hi : i < rows.length), rows[i].fac ≠ "" →
      (resolveNorm ntd nf rows[i].fac, (rows[i].date, rows[i].slot)) ∈ slots := by
    intro i hi hf
    have := hB i hi
    simp only [List.get_eq_getElem] at this
    exact this hf
  have huniq : ∀ k (hk : k < rows.length), k ≠ j → rows[k].fac ≠ "" →
      resolveNorm ntd nf rows[k].fac = cand → rows[k].date = r.date →
      rows[k].slot ≠ adjSlot := by
    intro k hk hkj hf hres hd he
    refine hA2 k hk j hj hkj hf (by rw [hjget2]; exact ht3)
      (by rw [hjget2, hres, ht4]) ?_
    refine ⟨by rw [hjget2, ht1]; exact hd, Or.inl ?_⟩
    rw [hjget2, ht2]
    exact he
  have hOK2 : ∀ k (hk : k < rows.length), k ≠ j → rows[k].fac ≠ "" →
      resolveNorm ntd nf rows[k].fac = cand →
      ¬ conflictBetween rows[k]
        { r with fac := displayOf ntd cand,
                 note := "assigned-by-shift-from-" ++ alt } := by
    intro k hk hkj hf hres hconf
    obtain ⟨hd, hs⟩ := hconf
    dsimp only at hd hs
    have hmem := hB2 k hk hf
    rw [hres] at hmem
    have hadjcase : rows[k].slot ∈ adjacent r.slot → False := by
      intro hadj
      have hslotne : rows[k].slot ≠ adjSlot := huniq k hk hkj hf hres hd
      have hmem2 : ((r.date, rows[k].slot) : Session) ∈
          eraseSess (r.date, adjSlot) (slotsOf slots cand) := by
        rw [mem_eraseSess]
        refine ⟨(mem_slotsOf _ _ _).mpr (by rw [← hd]; exact hmem), ?_⟩
        intro he
        exact hslotne (congrArg Prod.snd he)
      have hno := hasAdjConflict_false _ ha5 (r.date, r.slot)
        (by rw [mem_insertPair]; exact Or.inl rfl) rows[k].slot hadj
      apply hno
      rw [mem_insertPair]
      exact Or.inr hmem2
    rcases hs with h | h | h
    · exact hc2 (by rw [← hd, ← h]; exact hmem)
    · exact hadjcase (adjacent_symm _ _ h)
    · exact hadjcase h
  have hOK1 : ∀ k (hk : k < rows.length), rows[k].fac ≠ "" →
      resolveNorm ntd nf rows[k].fac = alt →
      ¬ conflictBetween rows[k]
        { tgt with fac := displayOf ntd alt, note := "shifted-by-algo" } := by
    intro k hk hf hres hconf
    obtain ⟨hd, hs⟩ := hconf
    dsimp only at hd hs
    rw [ht1] at hd
    rw [ht2] at hs
    have hmem := hB2 k hk hf
    rw [hres] at hmem
    have hadjcase : rows[k].slot ∈ adjacent adjSlot → False := by
      intro hadj
      have hno := hasAdjConflict_false _ ha4 (r.date, adjSlot)
        (by rw [mem_insertPair]; exact Or.inl rfl) rows[k].slot hadj
      apply hno
      rw [mem_insertPair]
      right
      rw [mem_slotsOf]
      rw [← hd]
      exact hmem
    rcases hs with h | h | h
    · exact ha3 (by rw [← hd, ← h]; exact hmem)
    · exact hadjcase (adjacent_symm _ _ h)
    · exact hadjcase h
  have hchar : ∀ k (hk : k < rows.length)
      (hk2 : k < ((rows.set j
        { tgt with fac := displayOf ntd alt, note := "shifted-by-algo" }).set idx
        { r with fac := displayOf ntd cand,
                 note := "assigned-by-shift-from-" ++ alt }).length),
      ((rows.set j
        { tgt with fac := displayOf ntd alt, note := "shifted-by-algo" }).set idx
        { r with fac := displayOf ntd cand,
                 note := "assigned-by-shift-from-" ++ alt })[k] =
        if idx = k then
          { r with fac := displayOf ntd cand,
                   note := "assigned-by-shift-from-" ++ alt }
        else if j = k then
          { tgt with fac := displayOf ntd alt, note := "shifted-by-algo" }
        else rows[k] := by
    intro k hk hk2
    rw [List.getElem_set, List.getElem_set]
  constructor
  · intro i hi i2 hi2 hne2 hf1 hf2 hres
    simp only [List.get_eq_getElem] at hf1 hf2 hres ⊢
    have hi3 : i < rows.length := by simpa [List.length_set] using hi
    have hi4 : i2 < rows.length := by simpa [List.length_set] using hi2
    rw [hchar i hi3 hi] at hf1 hres ⊢
    rw [hchar i2 hi4 hi2] at hf2 hres ⊢
    by_cases e1 : idx = i
    · rw [if_pos e1] at hf1 hres ⊢
      by_cases e3 : idx = i2
      · exact absurd (e1.symm.trans e3) hne2
      · rw [if_neg e3] at hf2 hres ⊢
        by_cases e4 : j = i2
        · rw [if_pos e4] at hf2 hres ⊢
          dsimp only at hres
          rw [hDcand.1, hDalt.1] at hres
          exact absurd hres.symm hca
        · rw [if_neg e4] at hf2 hres ⊢
          intro hconf
          refine hOK2 i2 hi4 (fun he => e4 he.symm) hf2 ?_
            (conflictBetween_symm _ _ hconf)
          dsimp only at hres
          rw [hDcand.1] at hres
          exact hres.symm
    · rw [if_neg e1] at hf1 hres ⊢
      by_cases e2 : j = i
      · rw [if_pos e2] at hf1 hres ⊢
        by_cases e3 : idx = i2
        · rw [if_pos e3] at hf2 hres ⊢
          dsimp only at hres
          rw [hDalt.1, hDcand.1] at hres
          exact absurd hres hca
        · rw [if_neg e3] at hf2 hres ⊢
          by_cases e4 : j = i2
          · exact absurd (e2.symm.trans e4) hne2
          · rw [if_neg e4] at hf2 hres ⊢
            intro hconf
            refine hOK1 i2 hi4 hf2 ?_ (conflictBetween_symm _ _ hconf)
            dsimp only at hres
            rw [hDalt.1] at hres
            exact hres.symm
      · rw [if_neg e2] at hf1 hres ⊢
        by_cases e3 : idx = i2
        · rw [if_pos e3] at hf2 hres ⊢
          intro hconf
          refine hOK2 i hi3 (fun he => e2 he.symm) hf1 ?_ hconf
          dsimp only at hres
          rw [hDcand.1] at hres
          exact hres
        · rw [if_neg e3] at hf2 hres ⊢
          by_cases e4 : j = i2
          · rw [if_pos e4] at hf2 hres ⊢
            intro hconf
            refine hOK1 i hi3 hf1 ?_ hconf
            dsimp only at hres
            rw [hDalt.1] at hres
            exact hres
          · rw [if_neg e4] at hf2 hres ⊢
            exact hA2 i hi3 i2 hi4 hne2 hf1 hf2 hres
  · intro k hk hf
    simp only [List.get_eq_getElem] at hf ⊢
    have hk3 : k < rows.length := by simpa [List.length_set] using hk
    rw [hchar k hk3 hk] at hf ⊢
    by_cases e1 : idx = k
    · rw [if_pos e1] at hf ⊢
      dsimp only
      rw [hDcand.1]
      rw [mem_insertPair]
      exact Or.inl rfl
    · rw [if_neg e1] at hf ⊢
      by_cases e2 : j = k
      · rw [if_pos e2] at hf ⊢
        dsimp only
        rw [hDalt.1, ht1, ht2]
        rw [mem_insertPair]
        right
        rw [mem_insertPair]
        exact Or.inl rfl
      · rw [if_neg e2] at hf ⊢
        have hmem := hB2 k hk3 hf
        rw [mem_insertPair]
        right
        rw [mem_insertPair]
        right
        rw [mem_erasePair]
        refine ⟨hmem, ?_⟩
        intro he
        have hres2 : resolveNorm ntd nf rows[k].fac = cand :=
          congrArg Prod.fst he
        have hsess2 := congrArg Prod.snd he
        have hd2 : rows[k].date = r.date := congrArg Prod.fst hsess2
        have hsl2 : rows[k].slot = adjSlot := congrArg Prod.snd hsess2
        exact huniq k hk3 (fun hej => e2 hej.symm) hf hres2 hd2 hsl2

theorem repairStep_inv (rev : Bool) (ctx : DCtx) (st : DState) (idx : Nat)
    (hg : GoodNTD ctx.ntd ctx.norm_order)
    (h : noConflicts ctx.ntd ctx.nf st.invig ∧
      rowsSound ctx.ntd ctx.nf st.invig st.slots) :
    noConflicts ctx.ntd ctx.nf (repairStep rev ctx st idx).invig ∧
    rowsSound ctx.ntd ctx.nf (repairStep rev ctx st idx).invig
      (repairStep rev ctx st idx).slots := by
  obtain ⟨hA, hB⟩ := h
  unfold repairStep
  cases hq : st.invig.get? idx with
  | none => exact ⟨hA, hB⟩
  | some r =>
    dsimp only
    split_ifs with h1
    · exact ⟨hA, hB⟩
    · cases hc : findCommit rev ctx st r with
      | none => exact ⟨hA, hB⟩
      | some c =>
        obtain ⟨cand, adjSlot, j, tgt, alt⟩ := c
        obtain ⟨hc1, hc2, hc3, hc4, ⟨hj, hjget⟩, ht1, ht2, ht3, ht4, ha1,
          ha2, ha3, ha4, ha5⟩ := findCommit_spec hc
        obtain ⟨hidx, hidxget⟩ := List.get?_eq_some.mp hq
        have hfac : r.fac = "" := by simpa using h1
        unfold applyCommit
        dsimp only
        exact commit_inv hg hA hB hidx hidxget hj hjget hfac hc1 ha1 ha2
          hc2 ht1 ht2 ht3 ht4 ha3 ha4 ha5

/-- C3: repair safety: after `attempt_one_hop_shifts` completes on the
state produced by `allocate_strict`, no faculty identity holds two duty
rows in the same (date, slot) session or in mutually adjacent slots on
the same date, provided the roster's display names are pairwise distinct
and nonempty. -/
theorem c3_repair_safety (rev : Bool) (ctx : DCtx)
    (hg : GoodNTD ctx.ntd ctx.norm_order) :
    noConflicts ctx.ntd ctx.nf
      (attempt_one_hop_shifts rev ctx (allocate_strict ctx)).invig := by
  have base := allocate_strict_inv ctx hg
  unfold attempt_one_hop_shifts
  exact (foldl_preserve (fun (s : DState) =>
      noConflicts ctx.ntd ctx.nf s.invig ∧
      rowsSound ctx.ntd ctx.nf s.invig s.slots) _
    (fun s idx hs => repairStep_inv rev ctx s idx hg hs)
    _ _ base).1

/-- C3 witness: the safety theorem applied to the one-hop scenario,
whose roster is well-formed. -/
theorem c3_witness :
    noConflicts ctxB.ntd ctxB.nf
      (attempt_one_hop_shifts false ctxB (allocate_strict ctxB)).invig :=
  c3_repair_safety false ctxB
    (by unfold GoodNTD ctxB mkCtx; exact ⟨by decide, by decide, by decide⟩)

end ExamPlan
